import Mathlib

/-!
# Verification of the task scheduler (`task_sorting.py`)

A shallow embedding of the task scheduler: a `Task` record, the
priority-weighted Kahn topological sort `topological_sort_with_priority`,
and the backward ("rightward-packing") scheduler
`schedule_tasks_with_priority`.  Numeric fields are modelled as rationals,
Python's stable `list.sort(key=...)` as `List.insertionSort` with a
non-strict key comparison (any stable ascending sort by key computes the
same list), and the in-place mutation of `start_time`/`finish_time` as a
function from the input task list to its post-call state (`schedulePost`).
The `while` loop of Kahn's algorithm is run on explicit fuel; the fuel is
provably sufficient (the loop measure strictly decreases), so the embedded
loop exits exactly when the ready pool is empty, as the Python loop does.
-/

namespace TaskSched

/-- The task record from `task_sorting.py`.  `start_time` and `finish_time`
are `none` until the scheduler assigns them. -/
structure Task where
  id : Nat
  deadline : ℚ
  duration : ℚ
  priority : ℚ
  status : String
  dependencies : List Nat
  start_time : Option ℚ := none
  finish_time : Option ℚ := none
deriving DecidableEq, Repr

deriving instance DecidableEq for Except

/-- `effective_deadline = deadline - alpha * priority` (line 51-52). -/
def effective_deadline (alpha : ℚ) (t : Task) : ℚ :=
  t.deadline - alpha * t.priority

/-- The ids of the tasks in input order (`task_map` keys / `in_degree` keys). -/
def idsOf (tasks : List Task) : List Nat :=
  tasks.map Task.id

/-- `task_map = {t.id: t for t in tasks}` (line 37): a Python dict
comprehension keeps the last task written for each id, hence the lookup
searches the reversed list. -/
def taskMapF (tasks : List Task) (i : Nat) : Option Task :=
  tasks.reverse.find? (fun t => t.id == i)

/-- `graph[dep_id]` after the build loop of lines 43-47: for each task `t`
(in input order) and each occurrence of `dep` in `t.dependencies`, `t.id`
was appended to `graph[dep]`, provided `dep` is a present id. -/
def graphF (tasks : List Task) (dep : Nat) : List Nat :=
  if (idsOf tasks).contains dep then
    tasks.flatMap (fun t => (t.dependencies.filter (fun dd => dd == dep)).map (fun _ => t.id))
  else []

/-- `in_degree[i]` after the build loop of lines 40-47: one unit for every
occurrence of a present dependency id in the dependency list of every task
whose id is `i`.  Kept as `Int` since Python integers may in principle go
negative under the later `-= 1` decrements. -/
def initInDeg (tasks : List Task) (i : Nat) : Int :=
  (((tasks.filter (fun t => t.id == i)).flatMap
      (fun t => t.dependencies.filter (fun dd => (idsOf tasks).contains dd))).length : Int)

/-- Python's stable `zero_in_degree.sort(key=effective_deadline)`:
a stable ascending sort by key. -/
def sortByEff (alpha : ℚ) (l : List Task) : List Task :=
  List.insertionSort (fun a b => effective_deadline alpha a ≤ effective_deadline alpha b) l

/-- The mutable state of the `while` loop (lines 60-69): the current
`in_degree` table, the `zero_in_degree` pool and the emitted `sorted_list`. -/
structure SortState where
  in_deg : Nat → Int
  pool : List Task
  out : List Task

/-- The inner `for nbr_id in graph[current.id]` loop (lines 64-67):
decrement the neighbour's in-degree; when it hits zero append
`task_map[nbr_id]` to the pool. -/
def processNbrs (tmap : Nat → Option Task) :
    List Nat → (Nat → Int) → List Task → ((Nat → Int) × List Task)
  | [], d, pool => (d, pool)
  | n :: rest, d, pool =>
      let d' := fun i => if i = n then d i - 1 else d i
      if d n - 1 = 0 then processNbrs tmap rest d' (pool ++ (tmap n).toList)
      else processNbrs tmap rest d' pool

/-- The tasks appended to the pool by one run of the inner loop of the
current iteration (a specification device for `processNbrs`). -/
def newcomers (tmap : Nat → Option Task) (nbrs : List Nat) (d : Nat → Int) : List Task :=
  (processNbrs tmap nbrs d []).2

/-- One iteration of the `while` loop: pop the pool's head, emit it,
process its neighbours, then re-sort the pool (lines 60-69). -/
def stepState (gr : Nat → List Nat) (tmap : Nat → Option Task) (alpha : ℚ)
    (current : Task) (rest : List Task) (d : Nat → Int) (out : List Task) : SortState :=
  let pr := processNbrs tmap (gr current.id) d rest
  ⟨pr.1, sortByEff alpha pr.2, out ++ [current]⟩

/-- The `while zero_in_degree:` loop, run on explicit fuel.  The fuel used
below is provably sufficient, so the out-of-fuel branch is never taken. -/
def loopFuel (gr : Nat → List Nat) (tmap : Nat → Option Task) (alpha : ℚ) :
    Nat → SortState → SortState
  | 0, s => s
  | fuel + 1, s =>
      match s.pool with
      | [] => s
      | current :: rest =>
          loopFuel gr tmap alpha fuel (stepState gr tmap alpha current rest s.in_deg s.out)

/-- The pop trace of the loop: for each iteration, the popped task together
with the ready pool it was popped from. -/
def loopTrace (gr : Nat → List Nat) (tmap : Nat → Option Task) (alpha : ℚ) :
    Nat → SortState → List (Task × List Task)
  | 0, _ => []
  | fuel + 1, s =>
      match s.pool with
      | [] => []
      | current :: rest =>
          (current, current :: rest) ::
            loopTrace gr tmap alpha fuel (stepState gr tmap alpha current rest s.in_deg s.out)

/-- Loop measure: remaining positive in-degree mass plus pool size.  It
strictly decreases at every iteration, so `measureOf + 1` fuel suffices. -/
def measureOf (tasks : List Task) (s : SortState) : Nat :=
  (((idsOf tasks).dedup).map (fun i => (s.in_deg i).toNat)).sum + s.pool.length

/-- The state just before the `while` loop: initial in-degrees and the
sorted pool of zero-in-degree tasks (lines 54-57). -/
def initState (tasks : List Task) (alpha : ℚ) : SortState :=
  ⟨initInDeg tasks,
   sortByEff alpha (tasks.filter (fun t => initInDeg tasks t.id == 0)),
   []⟩

/-- The loop's final state. -/
def runSort (tasks : List Task) (alpha : ℚ) : SortState :=
  loopFuel (graphF tasks) (taskMapF tasks) alpha
    (measureOf tasks (initState tasks alpha) + 1) (initState tasks alpha)

/-- The loop's pop trace, starting from the initial state. -/
def sortTrace (tasks : List Task) (alpha : ℚ) : List (Task × List Task) :=
  loopTrace (graphF tasks) (taskMapF tasks) alpha
    (measureOf tasks (initState tasks alpha) + 1) (initState tasks alpha)

/-- The cycle-error message of line 73. -/
def cycleMsg : String := "Существует циклическая зависимость между задачами!"

/-- `topological_sort_with_priority` (lines 28-75): run Kahn's algorithm
with the effective-deadline-sorted pool; raise the cycle error when not
every task was emitted. -/
def topological_sort_with_priority (tasks : List Task) (alpha : ℚ) :
    Except String (List Task) :=
  let fin := runSort tasks alpha
  if fin.out.length = tasks.length then Except.ok fin.out else Except.error cycleMsg

/-- The status filter of line 87-88. -/
def validStatus (s : String) : Bool :=
  s == "К выполнению" || s == "выполняется" || s == "на паузе"

/-- `max(t.deadline for t in tasks_ordered)` (line 98); the empty case is
unreachable since the scheduler returns early on an empty filtered set. -/
def maxDeadline : List Task → ℚ
  | [] => 0
  | t :: rest => rest.foldl (fun m u => max m u.deadline) t.deadline

/-- The backward packing loop of lines 104-114, processing the list from
the right: each task's finish is `min cursor deadline`, its start is
`finish - duration`, and the cursor moves to that start.  Returns the
annotated list (in the original order) together with the final cursor. -/
def packRight (cursor : ℚ) : List Task → List Task × ℚ
  | [] => ([], cursor)
  | t :: rest =>
      let pr := packRight cursor rest
      let finish := min pr.2 t.deadline
      let start := finish - t.duration
      ({ t with finish_time := some finish, start_time := some start } :: pr.1, start)

/-- The status-filtered working set `tasks_to_do` (line 88). -/
def filteredOf (tasks : List Task) : List Task :=
  tasks.filter (fun t => validStatus t.status)

/-- `schedule_tasks_with_priority` (lines 78-116): filter by status, sort
topologically, then pack the ordered tasks rightwards from the maximal
deadline.  The returned list is `tasks_ordered` with times filled in. -/
def schedule_tasks_with_priority (tasks : List Task) (alpha : ℚ) :
    Except String (List Task) :=
  let tasks_to_do := tasks.filter (fun t => validStatus t.status)
  if tasks_to_do.isEmpty then Except.ok []
  else
    match topological_sort_with_priority tasks_to_do alpha with
    | Except.error e => Except.error e
    | Except.ok tasks_ordered =>
        Except.ok (packRight (maxDeadline tasks_ordered) tasks_ordered).1

/-- The post-call state of the caller's task list: the Python code mutates
the scheduled task objects in place, so after a successful call each input
task that was scheduled is replaced (found by its unique id) by its
annotated version, and on the cycle error no task was touched, since the
ordering pass completes before any time assignment (lines 94, 104-114). -/
def schedulePost (tasks : List Task) (alpha : ℚ) : List Task :=
  match schedule_tasks_with_priority tasks alpha with
  | Except.error _ => tasks
  | Except.ok scheduled =>
      tasks.map (fun t => ((scheduled.find? (fun s => s.id == t.id)).getD t))

/-- The dependency occurrences of `x` that are present ids and whose task
has not been emitted into `outl` yet; the loop keeps `in_degree[x.id]`
equal to the number of such occurrences. -/
def unpoppedDeps (tasks : List Task) (outl : List Task) (x : Task) : List Nat :=
  x.dependencies.filter
    (fun dd => (idsOf tasks).contains dd && !((outl.map Task.id).contains dd))

/-- The dependency relation restricted to present ids: `depEdge tasks a b`
says some task of the list has id `b` and lists the present id `a` among
its dependencies (so the task with id `a` must come first). -/
def depEdge (tasks : List Task) (a b : Nat) : Prop :=
  a ∈ idsOf tasks ∧ ∃ t ∈ tasks, t.id = b ∧ a ∈ t.dependencies

/-- A dependency cycle: some id reaches itself through a nonempty chain of
dependency edges. -/
def hasDepCycle (tasks : List Task) : Prop :=
  ∃ x, Relation.TransGen (depEdge tasks) x x

/-- An emitted order respects the dependencies: every present dependency id
of an emitted task already occurs among the earlier-emitted ids. -/
def respectsOrder (tasks : List Task) (out : List Task) : Prop :=
  ∀ l₁ u l₂, out = l₁ ++ u :: l₂ →
    ∀ dd ∈ u.dependencies, dd ∈ idsOf tasks → dd ∈ l₁.map Task.id

/-- A task with its time fields cleared; used to state that the backward
pass only touches `start_time` and `finish_time`. -/
def eraseTimes (t : Task) : Task :=
  { t with start_time := none, finish_time := none }

/-- The assigned start time (`0` only in the unreachable unassigned case). -/
def stQ (t : Task) : ℚ := t.start_time.getD 0

/-- The assigned finish time (`0` only in the unreachable unassigned case). -/
def fiQ (t : Task) : ℚ := t.finish_time.getD 0

/-- The spec's claimed pool discipline: at every iteration the popped task
has minimal effective deadline among the ready pool, and whenever a pool
member ties with the popped task, the popped task occurs no later in the
original input list (ties broken by input order). -/
def tieBreakByInputOrder (tasks : List Task) (alpha : ℚ) : Prop :=
  ∀ pr ∈ sortTrace tasks alpha, ∀ x ∈ pr.2,
    effective_deadline alpha pr.1 ≤ effective_deadline alpha x ∧
    (effective_deadline alpha pr.1 = effective_deadline alpha x →
      (idsOf tasks).indexOf pr.1.id ≤ (idsOf tasks).indexOf x.id)

/-- The spec's claimed failure mode of the backward scheduler: for some
input satisfying the data model's preconditions (unique ids, non-negative
durations, acyclic filtered dependencies), some dependency is assigned a
start time strictly later than its dependent's start time. -/
def depStartsAfterDependent : Prop :=
  ∃ (tasks : List Task) (alpha : ℚ),
    (idsOf tasks).Nodup ∧ (∀ t ∈ tasks, 0 ≤ t.duration) ∧
    ¬ hasDepCycle (filteredOf tasks) ∧
    ∃ out, schedule_tasks_with_priority tasks alpha = Except.ok out ∧
      ∃ l₁ x l₂ y, out = l₁ ++ x :: l₂ ∧ y ∈ l₁ ∧ y.id ∈ x.dependencies ∧
        stQ x < stQ y

/-! ## Concrete example data (the demo task set of lines 120-129 and
small witness inputs) -/

def exTasks : List Task := [
  ⟨1, 50, 10, 3, "К выполнению", [], none, none⟩,
  ⟨2, 55, 5, 5, "выполняется", [], none, none⟩,
  ⟨3, 60, 5, 2, "К выполнению", [], none, none⟩,
  ⟨4, 60, 10, 4, "на паузе", [], none, none⟩,
  ⟨5, 100, 5, 1, "отменено", [], none, none⟩,
  ⟨6, 70, 5, 3, "К выполнению", [4, 1], none, none⟩]

/-- The output of `schedule_tasks_with_priority exTasks 0`. -/
def exOut0 : List Task := [
  ⟨1, 50, 10, 3, "К выполнению", [], some 30, some 40⟩,
  ⟨2, 55, 5, 5, "выполняется", [], some 40, some 45⟩,
  ⟨3, 60, 5, 2, "К выполнению", [], some 45, some 50⟩,
  ⟨4, 60, 10, 4, "на паузе", [], some 50, some 60⟩,
  ⟨6, 70, 5, 3, "К выполнению", [4, 1], some 65, some 70⟩]

def exPair : List Task := [
  ⟨1, 10, 2, 1, "К выполнению", [], none, none⟩,
  ⟨2, 10, 3, 1, "К выполнению", [1], none, none⟩]

/-- The output of `schedule_tasks_with_priority exPair 1`. -/
def exPairOut : List Task := [
  ⟨1, 10, 2, 1, "К выполнению", [], some 5, some 7⟩,
  ⟨2, 10, 3, 1, "К выполнению", [1], some 7, some 10⟩]

/-- A two-task dependency cycle with plannable statuses. -/
def exCyc : List Task := [
  ⟨1, 50, 10, 3, "К выполнению", [2], none, none⟩,
  ⟨2, 55, 5, 5, "выполняется", [1], none, none⟩]

/-- Task 2 (earlier in input) becomes ready only after task 1 is popped,
while task 3 with the same effective deadline is ready from the start. -/
def exC4 : List Task := [
  ⟨1, 0, 1, 1, "К выполнению", [], none, none⟩,
  ⟨2, 5, 1, 1, "К выполнению", [1], none, none⟩,
  ⟨3, 5, 1, 1, "К выполнению", [], none, none⟩]

/-! ## Generic list helpers -/

theorem count_flatMap {α β : Type} [DecidableEq β] (l : List α) (f : α → List β) (b : β) :
    (l.flatMap f).count b = (l.map (fun x => (f x).count b)).sum := by
  induction l with
  | nil => rfl
  | cons a l ih => simp [List.flatMap_cons, List.count_append, ih]

theorem sum_map_le {α : Type} (L : List α) (f g : α → ℕ) (h : ∀ i ∈ L, f i ≤ g i) :
    (L.map f).sum ≤ (L.map g).sum := by
  induction L with
  | nil => simp
  | cons a L ih =>
      simp only [List.map_cons, List.sum_cons]
      exact Nat.add_le_add (h a (by simp)) (ih (fun i hi => h i (List.mem_cons_of_mem a hi)))

theorem sum_map_update (L : List Nat) (hL : L.Nodup) (n : Nat) (hn : n ∈ L)
    (f : Nat → ℕ) (v : ℕ) :
    (L.map (fun i => if i = n then v else f i)).sum + f n = (L.map f).sum + v := by
  obtain ⟨l₁, l₂, rfl⟩ := List.append_of_mem hn
  have hd : List.Disjoint l₁ (n :: l₂) := List.disjoint_of_nodup_append hL
  have h2 : n ∉ l₁ := fun h => hd h (by simp)
  have h3 : n ∉ l₂ := (List.nodup_cons.mp hL.of_append_right).1
  have e₁ : l₁.map (fun i => if i = n then v else f i) = l₁.map f :=
    List.map_congr_left (fun a ha => by
      have : a ≠ n := fun h => h2 (h ▸ ha)
      simp [this])
  have e₂ : l₂.map (fun i => if i = n then v else f i) = l₂.map f :=
    List.map_congr_left (fun a ha => by
      have : a ≠ n := fun h => h3 (h ▸ ha)
      simp [this])
  simp [e₁, e₂]
  omega

theorem sum_map_single {α : Type} (L : List α) (x : α) (key : α → ℕ)
    (hL : (L.map key).Nodup) (hx : x ∈ L) (h : α → ℕ) :
    (L.map (fun t => if key t = key x then h t else 0)).sum = h x := by
  obtain ⟨l₁, l₂, rfl⟩ := List.append_of_mem hx
  have hmap : (l₁.map key ++ key x :: l₂.map key).Nodup := by simpa using hL
  have h1 : key x ∉ l₁.map key := by
    have := (List.nodup_append.mp hmap).2.2
    intro hmem
    exact this hmem (by simp)
  have h2 : key x ∉ l₂.map key := by
    have := (List.nodup_append.mp hmap).2.1
    exact (List.nodup_cons.mp this).1
  have e₁ : l₁.map (fun t => if key t = key x then h t else 0) = l₁.map (fun _ => 0) :=
    List.map_congr_left (fun a ha => by
      have : key a ≠ key x := fun he => h1 (he ▸ List.mem_map_of_mem key ha)
      simp [this])
  have e₂ : l₂.map (fun t => if key t = key x then h t else 0) = l₂.map (fun _ => 0) :=
    List.map_congr_left (fun a ha => by
      have : key a ≠ key x := fun he => h2 (he ▸ List.mem_map_of_mem key ha)
      simp [this])
  simp [e₁, e₂, List.sum_append]

theorem length_filter_not_beq (m : List Nat) (c : Nat) :
    (m.filter (fun dd => !(dd == c))).length + m.count c = m.length := by
  induction m with
  | nil => simp
  | cons a m ih =>
      by_cases h : a = c
      · subst h
        rw [List.filter_cons_of_neg (by simp), List.count_cons_self, List.length_cons]
        omega
      · rw [List.filter_cons_of_pos (by simp [h]), List.count_cons_of_ne (Ne.symm h),
          List.length_cons, List.length_cons]
        omega

theorem filter_and_comm (m : List Nat) (p q : Nat → Bool) :
    m.filter (fun dd => p dd && q dd) = (m.filter p).filter (fun dd => q dd) := by
  rw [List.filter_filter]
  apply List.filter_congr
  intro a _
  exact Bool.and_comm (p a) (q a)

/-- Splitting an append-singleton: the distinguished element is either the
appended one or sits inside the original list. -/
theorem append_singleton_split {α : Type} {out l₁ l₂ : List α} {c u : α}
    (h : out ++ [c] = l₁ ++ u :: l₂) :
    (l₁ = out ∧ u = c ∧ l₂ = []) ∨ ∃ l₂', out = l₁ ++ u :: l₂' ∧ l₂ = l₂' ++ [c] := by
  rcases List.eq_nil_or_concat l₂ with rfl | ⟨l₂', c', rfl⟩
  · left
    have hlen : out.length = l₁.length := by
      have := congrArg List.length h
      simp at this
      omega
    obtain ⟨h1, h2⟩ := List.append_inj h (by simpa using hlen)
    exact ⟨h1.symm, by simpa using h2.symm, rfl⟩
  · right
    rw [List.concat_eq_append, ← List.cons_append, ← List.append_assoc] at h
    obtain ⟨h1, h2⟩ := List.append_inj' h rfl
    have hc : c = c' := by simpa using h2
    exact ⟨l₂', by simpa using h1, by simp [List.concat_eq_append, hc]⟩

/-! ## Characterisation of the inner neighbour loop -/

theorem processNbrs_fst (tmap : Nat → Option Task) :
    ∀ (nbrs : List Nat) (d : Nat → Int) (pool : List Task) (i : Nat),
      (processNbrs tmap nbrs d pool).1 i = d i - (nbrs.count i : ℤ) := by
  intro nbrs
  induction nbrs with
  | nil => intro d pool i; simp [processNbrs]
  | cons n rest ih =>
      intro d pool i
      by_cases hi : i = n
      · subst hi
        simp only [processNbrs]
        split <;>
          · rw [ih]
            simp [List.count_cons_self]
            ring
      · simp only [processNbrs]
        have hc : (n :: rest).count i = rest.count i := List.count_cons_of_ne hi rest
        split <;>
          · rw [ih]
            simp [hi, hc]

theorem processNbrs_snd (tmap : Nat → Option Task) :
    ∀ (nbrs : List Nat) (d : Nat → Int) (pool : List Task),
      (processNbrs tmap nbrs d pool).2 = pool ++ newcomers tmap nbrs d := by
  intro nbrs
  induction nbrs with
  | nil => intro d pool; simp [processNbrs, newcomers]
  | cons n rest ih =>
      intro d pool
      simp only [processNbrs, newcomers]
      split
      · rw [ih, ih (fun i => if i = n then d i - 1 else d i) ([] ++ (tmap n).toList)]
        simp
      · rw [ih, ih (fun i => if i = n then d i - 1 else d i) ([] : List Task)]
        simp

theorem newcomers_cons (tmap : Nat → Option Task) (n : Nat) (rest : List Nat)
    (d : Nat → Int) :
    newcomers tmap (n :: rest) d =
      (if d n - 1 = 0 then (tmap n).toList else []) ++
        newcomers tmap rest (fun i => if i = n then d i - 1 else d i) := by
  by_cases hdn : d n - 1 = 0
  · simp only [newcomers, processNbrs, if_pos hdn]
    rw [processNbrs_snd]
    simp [newcomers]
  · simp only [newcomers, processNbrs, if_neg hdn]
    simp [newcomers]

theorem mem_newcomers (tmap : Nat → Option Task) :
    ∀ (nbrs : List Nat) (d : Nat → Int),
      (∀ n ∈ nbrs, (nbrs.count n : ℤ) ≤ d n) →
      ∀ x, (x ∈ newcomers tmap nbrs d ↔
        ∃ n ∈ nbrs, tmap n = some x ∧ d n = (nbrs.count n : ℤ) ∧ 1 ≤ d n) := by
  intro nbrs
  induction nbrs with
  | nil => intro d _ x; simp [newcomers, processNbrs]
  | cons n rest ih =>
      intro d H x
      set d' : Nat → Int := fun i => if i = n then d i - 1 else d i with hd'
      have hd'n : d' n = d n - 1 := by simp [hd']
      have hd'ne : ∀ m, m ≠ n → d' m = d m := by
        intro m hm; simp [hd', hm]
      have Hrest : ∀ m ∈ rest, (rest.count m : ℤ) ≤ d' m := by
        intro m hm
        by_cases hmn : m = n
        · subst hmn
          have h1 := H m (by simp)
          have hc : (m :: rest).count m = rest.count m + 1 := List.count_cons_self m rest
          rw [hd'n]
          omega
        · have h1 := H m (List.mem_cons_of_mem n hm)
          have hc : (n :: rest).count m = rest.count m := List.count_cons_of_ne hmn rest
          rw [hd'ne m hmn]
          omega
      rw [newcomers_cons, ← hd']
      have hcount_self : (n :: rest).count n = rest.count n + 1 := List.count_cons_self n rest
      constructor
      · intro hx
        rcases List.mem_append.mp hx with hx | hx
        · have hdn : d n - 1 = 0 := by
            by_contra hne
            rw [if_neg hne] at hx
            simp at hx
          rw [if_pos hdn] at hx
          have hsome : tmap n = some x := by
            cases htm : tmap n with
            | none => rw [htm] at hx; simp at hx
            | some t =>
                rw [htm] at hx
                simp only [Option.toList_some, List.mem_singleton] at hx
                subst hx
                rfl
          have hcle : ((n :: rest).count n : ℤ) ≤ d n := H n (by simp)
          have hge : 0 < (n :: rest).count n := List.count_pos_iff.mpr (by simp)
          exact ⟨n, by simp, hsome, by omega, by omega⟩
        · obtain ⟨m, hm, hmap, hdm, hd1⟩ := (ih d' Hrest x).mp hx
          by_cases hmn : m = n
          · subst hmn
            rw [hd'n] at hdm hd1
            exact ⟨m, by simp, hmap, by omega, by omega⟩
          · rw [hd'ne m hmn] at hdm hd1
            have hc : (n :: rest).count m = rest.count m := List.count_cons_of_ne hmn rest
            exact ⟨m, List.mem_cons_of_mem n hm, hmap, by omega, hd1⟩
      · rintro ⟨m, hm, hmap, hdm, hd1⟩
        apply List.mem_append.mpr
        by_cases hmn : m = n
        · subst hmn
          by_cases hone : d m = 1
          · left
            have hz : d m - 1 = 0 := by omega
            rw [if_pos hz, hmap]
            simp
          · right
            apply (ih d' Hrest x).mpr
            have hrge : 0 < rest.count m := by omega
            refine ⟨m, List.count_pos_iff.mp hrge, hmap, ?_, ?_⟩
            · rw [hd'n]; omega
            · rw [hd'n]; omega
        · right
          have hc : (n :: rest).count m = rest.count m := List.count_cons_of_ne hmn rest
          have hmr : m ∈ rest := by
            rcases List.mem_cons.mp hm with h | h
            · exact absurd h hmn
            · exact h
          apply (ih d' Hrest x).mpr
          exact ⟨m, hmr, hmap, by rw [hd'ne m hmn]; omega, by rw [hd'ne m hmn]; omega⟩

theorem not_mem_newcomers_ids (tmap : Nat → Option Task)
    (hc : ∀ n t, tmap n = some t → t.id = n) :
    ∀ (nbrs : List Nat) (d : Nat → Int) (i : Nat), d i ≤ 0 →
      i ∉ (newcomers tmap nbrs d).map Task.id := by
  intro nbrs
  induction nbrs with
  | nil => intro d i _; simp [newcomers, processNbrs]
  | cons n rest ih =>
      intro d i hi
      rw [newcomers_cons]
      intro hmem
      rw [List.map_append, List.mem_append] at hmem
      rcases hmem with hmem | hmem
      · have hdn : d n - 1 = 0 := by
          by_contra hne
          rw [if_neg hne] at hmem
          simp at hmem
        rw [if_pos hdn] at hmem
        cases htm : tmap n with
        | none => rw [htm] at hmem; simp at hmem
        | some t =>
            rw [htm] at hmem
            have hid : t.id = n := hc n t htm
            simp only [Option.toList_some, List.map_cons, List.map_nil,
              List.mem_singleton] at hmem
            rw [hmem, hid] at hi
            omega
      · have hd' : (if i = n then d i - 1 else d i) ≤ 0 := by
          by_cases hin : i = n
          · rw [if_pos hin]; omega
          · rw [if_neg hin]; exact hi
        exact ih _ i hd' hmem

theorem newcomers_ids_nodup (tmap : Nat → Option Task)
    (hc : ∀ n t, tmap n = some t → t.id = n) :
    ∀ (nbrs : List Nat) (d : Nat → Int),
      ((newcomers tmap nbrs d).map Task.id).Nodup := by
  intro nbrs
  induction nbrs with
  | nil => intro d; simp [newcomers, processNbrs]
  | cons n rest ih =>
      intro d
      rw [newcomers_cons]
      rw [List.map_append, List.nodup_append]
      refine ⟨?_, ih _, ?_⟩
      · by_cases hdn : d n - 1 = 0
        · rw [if_pos hdn]
          cases htm : tmap n with
          | none => simp
          | some t => simp
        · rw [if_neg hdn]; simp
      · intro a ha
        by_cases hdn : d n - 1 = 0
        · rw [if_pos hdn] at ha
          cases htm : tmap n with
          | none => rw [htm] at ha; simp at ha
          | some t =>
              rw [htm] at ha
              have hid : t.id = n := hc n t htm
              simp only [Option.toList_some, List.map_cons, List.map_nil,
                List.mem_singleton] at ha
              subst ha
              rw [hid]
              apply not_mem_newcomers_ids tmap hc rest _ n
              rw [if_pos rfl]
              omega
        · rw [if_neg hdn] at ha
          simp at ha

/-! ## Facts about the graph construction -/

theorem tasks_id_inj {tasks : List Task} (hN : (idsOf tasks).Nodup)
    {x y : Task} (hx : x ∈ tasks) (hy : y ∈ tasks) (h : x.id = y.id) : x = y :=
  List.inj_on_of_nodup_map (by simpa [idsOf] using hN) hx hy h

theorem taskMapF_spec {tasks : List Task} {n : Nat} {t : Task}
    (h : taskMapF tasks n = some t) : t.id = n ∧ t ∈ tasks := by
  have h1 := List.find?_some h
  have h2 := List.mem_of_find?_eq_some h
  exact ⟨by simpa using h1, by simpa using h2⟩

theorem taskMapF_self {tasks : List Task} (hN : (idsOf tasks).Nodup)
    {x : Task} (hx : x ∈ tasks) : taskMapF tasks x.id = some x := by
  have hex : (tasks.reverse.find? (fun t => t.id == x.id)).isSome := by
    rw [List.find?_isSome]
    exact ⟨x, by simpa using hx, by simp⟩
  cases htm : taskMapF tasks x.id with
  | none => rw [taskMapF] at htm; rw [htm] at hex; simp at hex
  | some y =>
      obtain ⟨hy1, hy2⟩ := taskMapF_spec htm
      rw [tasks_id_inj hN hy2 hx hy1]

theorem mem_graphF {tasks : List Task} {dep n : Nat} :
    n ∈ graphF tasks dep ↔
      dep ∈ idsOf tasks ∧ ∃ t ∈ tasks, t.id = n ∧ dep ∈ t.dependencies := by
  rw [graphF]
  by_cases hdep : dep ∈ idsOf tasks
  · rw [if_pos (by simpa using hdep)]
    simp only [List.mem_flatMap, List.mem_map, List.mem_filter]
    constructor
    · rintro ⟨t, ht, dd, ⟨hdd, hbeq⟩, rfl⟩
      exact ⟨hdep, t, ht, rfl, by rwa [← eq_of_beq hbeq]⟩
    · rintro ⟨_, t, ht, rfl, hdd⟩
      exact ⟨t, ht, dep, ⟨hdd, by simp⟩, rfl⟩
  · rw [if_neg (by simpa using hdep)]
    simp [hdep]

theorem graphF_subset_ids {tasks : List Task} {dep n : Nat}
    (h : n ∈ graphF tasks dep) : n ∈ idsOf tasks := by
  obtain ⟨_, t, ht, rfl, _⟩ := mem_graphF.mp h
  exact List.mem_map_of_mem Task.id ht

theorem filter_id_singleton {tasks : List Task} (hN : (idsOf tasks).Nodup)
    {x : Task} (hx : x ∈ tasks) :
    tasks.filter (fun t => t.id == x.id) = [x] := by
  obtain ⟨l₁, l₂, rfl⟩ := List.append_of_mem hx
  have hids : (l₁.map Task.id ++ x.id :: l₂.map Task.id).Nodup := by
    simpa [idsOf] using hN
  have h1 : x.id ∉ l₁.map Task.id := by
    have := (List.nodup_append.mp hids).2.2
    intro hmem
    exact this hmem (by simp)
  have h2 : x.id ∉ l₂.map Task.id := ((List.nodup_append.mp hids).2.1).not_mem
  rw [List.filter_append, List.filter_cons_of_pos (by simp)]
  have e₁ : l₁.filter (fun t => t.id == x.id) = [] := by
    rw [List.filter_eq_nil_iff]
    intro t ht
    simp only [beq_iff_eq]
    exact fun he => h1 (he ▸ List.mem_map_of_mem Task.id ht)
  have e₂ : l₂.filter (fun t => t.id == x.id) = [] := by
    rw [List.filter_eq_nil_iff]
    intro t ht
    simp only [beq_iff_eq]
    exact fun he => h2 (he ▸ List.mem_map_of_mem Task.id ht)
  rw [e₁, e₂]
  rfl

theorem initInDeg_eq {tasks : List Task} (hN : (idsOf tasks).Nodup)
    {x : Task} (hx : x ∈ tasks) :
    initInDeg tasks x.id =
      ((x.dependencies.filter (fun dd => (idsOf tasks).contains dd)).length : ℤ) := by
  rw [initInDeg, filter_id_singleton hN hx]
  simp

theorem count_graphF {tasks : List Task} (hN : (idsOf tasks).Nodup)
    {x : Task} (hx : x ∈ tasks) {dep : Nat} (hdep : dep ∈ idsOf tasks) :
    (graphF tasks dep).count x.id = x.dependencies.count dep := by
  rw [graphF, if_pos (by simpa using hdep)]
  rw [count_flatMap]
  have hmap : ∀ t : Task,
      ((t.dependencies.filter (fun dd => dd == dep)).map (fun _ => t.id)).count x.id =
        if t.id = x.id then t.dependencies.count dep else 0 := by
    intro t
    rw [List.map_const']
    rw [List.count_replicate]
    have hlen : (t.dependencies.filter (fun dd => dd == dep)).length =
        t.dependencies.count dep := by
      rw [List.count, List.countP_eq_length_filter]
    by_cases h : t.id = x.id
    · rw [if_pos (by simpa using h), if_pos h, hlen]
    · rw [if_neg (by simpa using h), if_neg h]
  have : (tasks.map
      (fun t => ((t.dependencies.filter (fun dd => dd == dep)).map (fun _ => t.id)).count x.id)) =
      tasks.map (fun t => if t.id = x.id then t.dependencies.count dep else 0) :=
    List.map_congr_left (fun t _ => hmap t)
  rw [this]
  exact sum_map_single tasks x Task.id (by simpa [idsOf] using hN) hx
    (fun t => t.dependencies.count dep)

/-! ## The loop invariant of Kahn's algorithm -/

theorem contains_true {l : List Nat} {a : Nat} (h : a ∈ l) : l.contains a = true := by
  simpa [List.contains] using h

theorem contains_false {l : List Nat} {a : Nat} (h : a ∉ l) : l.contains a = false := by
  simpa [List.contains] using h

theorem mem_sortByEff {alpha : ℚ} {l : List Task} {x : Task} :
    x ∈ sortByEff alpha l ↔ x ∈ l :=
  List.mem_insertionSort _

theorem perm_sortByEff (alpha : ℚ) (l : List Task) : List.Perm (sortByEff alpha l) l :=
  List.perm_insertionSort _ l

theorem length_sortByEff (alpha : ℚ) (l : List Task) :
    (sortByEff alpha l).length = l.length :=
  (perm_sortByEff alpha l).length_eq

theorem sorted_sortByEff (alpha : ℚ) (l : List Task) :
    (sortByEff alpha l).Sorted
      (fun a b => effective_deadline alpha a ≤ effective_deadline alpha b) := by
  haveI : IsTotal Task (fun a b => effective_deadline alpha a ≤ effective_deadline alpha b) :=
    ⟨fun a b => le_total _ _⟩
  haveI : IsTrans Task (fun a b => effective_deadline alpha a ≤ effective_deadline alpha b) :=
    ⟨fun _ _ _ hab hbc => le_trans hab hbc⟩
  exact List.sorted_insertionSort _ l

/-- The invariant maintained by every iteration of the `while` loop:
emitted and pooled tasks are distinct input tasks; `in_degree` counts, for
every task, its present dependency occurrences whose task has not been
emitted; every emitted task's present dependencies were emitted before it;
every pooled task's present dependencies are all emitted; every task with
zero in-degree was emitted or pooled; the pool is sorted by effective
deadline. -/
structure SortInv (tasks : List Task) (alpha : ℚ) (s : SortState) : Prop where
  mem : ∀ t ∈ s.out ++ s.pool, t ∈ tasks
  nodup : ((s.out ++ s.pool).map Task.id).Nodup
  deg : ∀ x ∈ tasks, s.in_deg x.id = ((unpoppedDeps tasks s.out x).length : ℤ)
  ord : ∀ l₁ u l₂, s.out = l₁ ++ u :: l₂ →
    ∀ dd ∈ u.dependencies, dd ∈ idsOf tasks → dd ∈ l₁.map Task.id
  ready : ∀ u ∈ s.pool, ∀ dd ∈ u.dependencies, dd ∈ idsOf tasks → dd ∈ s.out.map Task.id
  zero : ∀ x ∈ tasks, s.in_deg x.id = 0 → x ∈ s.out ++ s.pool
  sorted : s.pool.Sorted (fun a b => effective_deadline alpha a ≤ effective_deadline alpha b)

theorem SortInv.deg_zero_of_mem {tasks : List Task} {alpha : ℚ} {s : SortState}
    (hInv : SortInv tasks alpha s) {x : Task} (hx : x ∈ s.out ++ s.pool)
    (hxt : x ∈ tasks) : s.in_deg x.id = 0 := by
  rw [hInv.deg x hxt]
  have hnil : unpoppedDeps tasks s.out x = [] := by
    rw [unpoppedDeps, List.filter_eq_nil_iff]
    intro dd hdd
    by_cases hpres : dd ∈ idsOf tasks
    · have hout : dd ∈ s.out.map Task.id := by
        rcases List.mem_append.mp hx with hxo | hxp
        · obtain ⟨l₁, l₂, hsp⟩ := List.append_of_mem hxo
          have := hInv.ord l₁ x l₂ hsp dd hdd hpres
          rw [hsp, List.map_append]
          exact List.mem_append.mpr (Or.inl this)
        · exact hInv.ready x hxp dd hdd hpres
      intro hpred
      rw [contains_true hpres, contains_true hout] at hpred
      simp at hpred
    · intro hpred
      rw [contains_false hpres] at hpred
      simp at hpred
  rw [hnil]
  rfl

theorem sortInv_init (tasks : List Task) (alpha : ℚ) (hN : (idsOf tasks).Nodup) :
    SortInv tasks alpha (initState tasks alpha) := by
  have hOutE : (initState tasks alpha).out = ([] : List Task) := rfl
  have hDegE : (initState tasks alpha).in_deg = initInDeg tasks := rfl
  have hPoolE : (initState tasks alpha).pool =
      sortByEff alpha (tasks.filter (fun t => initInDeg tasks t.id == 0)) := rfl
  have hpool : ∀ x, x ∈ (initState tasks alpha).pool ↔
      x ∈ tasks ∧ initInDeg tasks x.id = 0 := by
    intro x
    rw [hPoolE, mem_sortByEff, List.mem_filter]
    simp
  have hunpop : ∀ x : Task, unpoppedDeps tasks ([] : List Task) x =
      x.dependencies.filter (fun dd => (idsOf tasks).contains dd) := by
    intro x
    rw [unpoppedDeps]
    apply List.filter_congr
    intro dd _
    simp
  refine ⟨?_, ?_, ?_, ?_, ?_, ?_, ?_⟩
  · intro t ht
    rw [hOutE, List.nil_append] at ht
    exact ((hpool t).mp ht).1
  · rw [hOutE, List.nil_append, hPoolE]
    have hperm2 := (perm_sortByEff alpha
      (tasks.filter (fun t => initInDeg tasks t.id == 0))).map Task.id
    rw [List.Perm.nodup_iff hperm2]
    exact List.Nodup.sublist (List.Sublist.map Task.id (List.filter_sublist tasks)) hN
  · intro x hx
    rw [hDegE, hOutE, initInDeg_eq hN hx, hunpop x]
  · intro l₁ u l₂ h
    rw [hOutE] at h
    exact absurd (List.append_eq_nil.mp h.symm).2 (List.cons_ne_nil u l₂)
  · intro u hu dd hdd hpres
    obtain ⟨hut, hdeg⟩ := (hpool u).mp hu
    rw [initInDeg_eq hN hut] at hdeg
    have hlen : (u.dependencies.filter (fun dd => (idsOf tasks).contains dd)).length = 0 := by
      omega
    have hmem : dd ∈ u.dependencies.filter (fun dd => (idsOf tasks).contains dd) :=
      List.mem_filter.mpr ⟨hdd, contains_true hpres⟩
    rw [List.length_eq_zero.mp hlen] at hmem
    simp at hmem
  · intro x hx hdeg
    rw [hDegE] at hdeg
    exact List.mem_append.mpr (Or.inr ((hpool x).mpr ⟨hx, hdeg⟩))
  · rw [hPoolE]
    exact sorted_sortByEff alpha _

theorem sortInv_step {tasks : List Task} {alpha : ℚ} (hN : (idsOf tasks).Nodup)
    {d : Nat → Int} {current : Task} {rest out : List Task}
    (hInv : SortInv tasks alpha ⟨d, current :: rest, out⟩) :
    SortInv tasks alpha
      (stepState (graphF tasks) (taskMapF tasks) alpha current rest d out) := by
  have hO : (stepState (graphF tasks) (taskMapF tasks) alpha current rest d out).out =
      out ++ [current] := rfl
  have hP : (stepState (graphF tasks) (taskMapF tasks) alpha current rest d out).pool =
      sortByEff alpha
        ((processNbrs (taskMapF tasks) (graphF tasks current.id) d rest).2) := rfl
  have hD : (stepState (graphF tasks) (taskMapF tasks) alpha current rest d out).in_deg =
      (processNbrs (taskMapF tasks) (graphF tasks current.id) d rest).1 := rfl
  have hcur_mem : current ∈ tasks := hInv.mem current (by simp)
  have hcur_pres : current.id ∈ idsOf tasks := List.mem_map_of_mem Task.id hcur_mem
  have hnodup0 : ((out ++ current :: rest).map Task.id).Nodup := hInv.nodup
  have hnodup0' : (out.map Task.id ++ current.id :: rest.map Task.id).Nodup := by
    simpa using hnodup0
  have hcur_not_out : current.id ∉ out.map Task.id := by
    intro hmem
    exact (List.nodup_append.mp hnodup0').2.2 hmem (by simp)
  have hcur_not_rest : current.id ∉ rest.map Task.id :=
    (List.nodup_cons.mp (List.nodup_append.mp hnodup0').2.1).1
  have hmap_c : ∀ n t, taskMapF tasks n = some t → t.id = n :=
    fun n t h => (taskMapF_spec h).1
  have hmemP : ∀ t ∈ out ++ current :: rest, t ∈ tasks := hInv.mem
  have hdegP : ∀ x ∈ tasks, d x.id = ((unpoppedDeps tasks out x).length : ℤ) := hInv.deg
  have hordP : ∀ l₁ u l₂, out = l₁ ++ u :: l₂ →
      ∀ dd ∈ u.dependencies, dd ∈ idsOf tasks → dd ∈ l₁.map Task.id := hInv.ord
  have hreadyP : ∀ u ∈ current :: rest, ∀ dd ∈ u.dependencies,
      dd ∈ idsOf tasks → dd ∈ out.map Task.id := hInv.ready
  have hzeroP : ∀ x ∈ tasks, d x.id = 0 → x ∈ out ++ current :: rest := hInv.zero
  have hcount_unpop : ∀ x ∈ tasks,
      (unpoppedDeps tasks out x).count current.id = x.dependencies.count current.id := by
    intro x _
    rw [unpoppedDeps]
    apply List.count_filter
    rw [contains_true hcur_pres, contains_false hcur_not_out]
    rfl
  have HH : ∀ n ∈ graphF tasks current.id,
      (((graphF tasks current.id).count n : ℤ)) ≤ d n := by
    intro n hn
    obtain ⟨_, t, ht, htid, hdd⟩ := mem_graphF.mp hn
    subst htid
    rw [count_graphF hN ht hcur_pres, hdegP t ht, ← hcount_unpop t ht]
    exact_mod_cast List.count_le_length current.id (unpoppedDeps tasks out t)
  have hunpop_split : ∀ x : Task, unpoppedDeps tasks (out ++ [current]) x =
      (unpoppedDeps tasks out x).filter (fun dd => !(dd == current.id)) := by
    intro x
    rw [unpoppedDeps, unpoppedDeps, ← filter_and_comm]
    apply List.filter_congr
    intro dd _
    have hmape : (out ++ [current]).map Task.id = out.map Task.id ++ [current.id] := by
      simp
    rw [hmape]
    by_cases h1 : dd ∈ idsOf tasks <;> by_cases h2 : dd ∈ out.map Task.id <;>
      by_cases h3 : dd = current.id <;>
        simp [List.contains, h1, h2, h3]
  have hdeg' : ∀ x ∈ tasks,
      (processNbrs (taskMapF tasks) (graphF tasks current.id) d rest).1 x.id =
        ((unpoppedDeps tasks (out ++ [current]) x).length : ℤ) := by
    intro x hx
    rw [processNbrs_fst, count_graphF hN hx hcur_pres, hdegP x hx, hunpop_split x]
    have hlen := length_filter_not_beq (unpoppedDeps tasks out x) current.id
    have hcnt := hcount_unpop x hx
    omega
  have hpool1 : (processNbrs (taskMapF tasks) (graphF tasks current.id) d rest).2 =
      rest ++ newcomers (taskMapF tasks) (graphF tasks current.id) d :=
    processNbrs_snd (taskMapF tasks) (graphF tasks current.id) d rest
  have hnewc_spec : ∀ x ∈ newcomers (taskMapF tasks) (graphF tasks current.id) d,
      x ∈ tasks ∧ 1 ≤ d x.id ∧
        d x.id = (((graphF tasks current.id).count x.id : ℤ)) ∧
        x.id ∈ graphF tasks current.id := by
    intro x hxn
    obtain ⟨n, hn, hmapx, hdn, hd1⟩ :=
      (mem_newcomers (taskMapF tasks) (graphF tasks current.id) d HH x).mp hxn
    obtain ⟨hid, hmem⟩ := taskMapF_spec hmapx
    subst hid
    exact ⟨hmem, hd1, hdn, hn⟩
  have hnewc_id_not_old : ∀ x ∈ newcomers (taskMapF tasks) (graphF tasks current.id) d,
      x.id ∉ (out ++ current :: rest).map Task.id := by
    intro x hxn hmem
    obtain ⟨hxt, hd1, _, _⟩ := hnewc_spec x hxn
    obtain ⟨u, hu, huid⟩ := List.mem_map.mp hmem
    have hut : u ∈ tasks := hmemP u hu
    have hux : u = x := tasks_id_inj hN hut hxt huid
    subst hux
    have hz : d u.id = 0 := hInv.deg_zero_of_mem hu hut
    omega
  refine ⟨?_, ?_, ?_, ?_, ?_, ?_, ?_⟩
  · -- mem
    intro t ht
    rw [hO, hP] at ht
    rcases List.mem_append.mp ht with h | h
    · rcases List.mem_append.mp h with h | h
      · exact hmemP t (List.mem_append.mpr (Or.inl h))
      · have : t = current := by simpa using h
        subst this
        exact hcur_mem
    · rw [mem_sortByEff, hpool1] at h
      rcases List.mem_append.mp h with h | h
      · exact hmemP t (List.mem_append.mpr (Or.inr (List.mem_cons_of_mem current h)))
      · exact (hnewc_spec t h).1
  · -- nodup
    rw [hO, hP]
    have hpermL : List.Perm
        (((out ++ [current]) ++ sortByEff alpha
          ((processNbrs (taskMapF tasks) (graphF tasks current.id) d rest).2)).map Task.id)
        (((out ++ [current]) ++
          (processNbrs (taskMapF tasks) (graphF tasks current.id) d rest).2).map Task.id) :=
      (List.Perm.append_left (out ++ [current]) (perm_sortByEff alpha _)).map Task.id
    rw [List.Perm.nodup_iff hpermL, hpool1]
    have hassoc : (out ++ [current]) ++
        (rest ++ newcomers (taskMapF tasks) (graphF tasks current.id) d) =
        (out ++ current :: rest) ++ newcomers (taskMapF tasks) (graphF tasks current.id) d := by
      simp
    rw [hassoc, List.map_append, List.nodup_append]
    refine ⟨hnodup0, newcomers_ids_nodup (taskMapF tasks) hmap_c _ d, ?_⟩
    intro a ha hanew
    obtain ⟨x, hxn, hxid⟩ := List.mem_map.mp hanew
    exact hnewc_id_not_old x hxn (hxid ▸ ha)
  · -- deg
    intro x hx
    rw [hD, hO]
    exact hdeg' x hx
  · -- ord
    intro l₁ u l₂ h
    rw [hO] at h
    rcases append_singleton_split h with ⟨rfl, rfl, rfl⟩ | ⟨l₂', hout, _⟩
    · intro dd hdd hpres
      exact hreadyP u (by simp) dd hdd hpres
    · exact hordP l₁ u l₂' hout
  · -- ready
    intro u hu dd hdd hpres
    rw [hP, mem_sortByEff, hpool1] at hu
    rw [hO]
    have hsub : dd ∈ out.map Task.id → dd ∈ (out ++ [current]).map Task.id := by
      intro h
      rw [List.map_append]
      exact List.mem_append.mpr (Or.inl h)
    rcases List.mem_append.mp hu with h | h
    · exact hsub (hreadyP u (List.mem_cons_of_mem current h) dd hdd hpres)
    · obtain ⟨hut, _, hdcnt, _⟩ := hnewc_spec u h
      have hz : (processNbrs (taskMapF tasks) (graphF tasks current.id) d rest).1 u.id = 0 := by
        rw [processNbrs_fst]
        omega
      rw [hdeg' u hut] at hz
      have hzn : (unpoppedDeps tasks (out ++ [current]) u).length = 0 := by omega
      by_contra hnot
      have hmem : dd ∈ unpoppedDeps tasks (out ++ [current]) u := by
        rw [unpoppedDeps]
        apply List.mem_filter.mpr
        refine ⟨hdd, ?_⟩
        rw [contains_true hpres, contains_false hnot]
        rfl
      rw [List.length_eq_zero.mp hzn] at hmem
      simp at hmem
  · -- zero
    intro x hx hz
    rw [hD] at hz
    rw [hO, hP]
    have hfst := processNbrs_fst (taskMapF tasks) (graphF tasks current.id) d rest x.id
    by_cases hc0 : (graphF tasks current.id).count x.id = 0
    · have hdz : d x.id = 0 := by
        rw [hfst, hc0] at hz
        omega
      have hold : x ∈ out ++ current :: rest := hzeroP x hx hdz
      rcases List.mem_append.mp hold with h | h
      · exact List.mem_append.mpr (Or.inl (List.mem_append.mpr (Or.inl h)))
      · rcases List.mem_cons.mp h with h | h
        · subst h
          exact List.mem_append.mpr (Or.inl (List.mem_append.mpr (Or.inr (by simp))))
        · refine List.mem_append.mpr (Or.inr ?_)
          rw [mem_sortByEff, hpool1]
          exact List.mem_append.mpr (Or.inl h)
    · have hmemn : x.id ∈ graphF tasks current.id :=
        List.count_pos_iff.mp (by omega)
      have hle := HH x.id hmemn
      refine List.mem_append.mpr (Or.inr ?_)
      rw [mem_sortByEff, hpool1]
      refine List.mem_append.mpr (Or.inr ?_)
      apply (mem_newcomers (taskMapF tasks) (graphF tasks current.id) d HH x).mpr
      exact ⟨x.id, hmemn, taskMapF_self hN hx, by omega, by omega⟩
  · -- sorted
    rw [hP]
    exact sorted_sortByEff alpha _

/-! ## Termination: the loop measure strictly decreases -/

theorem processNbrs_measure (tmap : Nat → Option Task) (L : List Nat) (hL : L.Nodup) :
    ∀ (nbrs : List Nat) (d : Nat → Int) (pool : List Task),
      (∀ n ∈ nbrs, n ∈ L) →
      (L.map (fun i => ((processNbrs tmap nbrs d pool).1 i).toNat)).sum
          + (processNbrs tmap nbrs d pool).2.length ≤
        (L.map (fun i => (d i).toNat)).sum + pool.length := by
  intro nbrs
  induction nbrs with
  | nil => intro d pool _; simp [processNbrs]
  | cons n rest ih =>
      intro d pool hsub
      have hnL : n ∈ L := hsub n (by simp)
      have hsub' : ∀ m ∈ rest, m ∈ L := fun m hm => hsub m (List.mem_cons_of_mem n hm)
      by_cases hdn : d n - 1 = 0
      · have hstep : processNbrs tmap (n :: rest) d pool =
            processNbrs tmap rest (fun i => if i = n then d i - 1 else d i)
              (pool ++ (tmap n).toList) := by
          simp only [processNbrs, if_pos hdn]
        rw [hstep]
        have hih := ih (fun i => if i = n then d i - 1 else d i)
          (pool ++ (tmap n).toList) hsub'
        have hupd : (L.map (fun i => ((fun i => if i = n then d i - 1 else d i) i).toNat)).sum
            + (d n).toNat = (L.map (fun i => (d i).toNat)).sum + (d n - 1).toNat := by
          have := sum_map_update L hL n hnL (fun i => (d i).toNat) ((d n - 1).toNat)
          have hcongr : (L.map (fun i => ((fun i => if i = n then d i - 1 else d i) i).toNat))
              = (L.map (fun i => if i = n then (d n - 1).toNat else (d i).toNat)) := by
            apply List.map_congr_left
            intro a _
            by_cases ha : a = n
            · subst ha; simp
            · simp [ha]
          rw [hcongr, this]
        have htl : (tmap n).toList.length ≤ 1 := by
          cases tmap n <;> simp
        have hlen : (pool ++ (tmap n).toList).length = pool.length + (tmap n).toList.length := by
          simp
        omega
      · have hstep : processNbrs tmap (n :: rest) d pool =
            processNbrs tmap rest (fun i => if i = n then d i - 1 else d i) pool := by
          simp only [processNbrs, if_neg hdn]
        rw [hstep]
        have hih := ih (fun i => if i = n then d i - 1 else d i) pool hsub'
        have hmono : (L.map (fun i => ((fun i => if i = n then d i - 1 else d i) i).toNat)).sum
            ≤ (L.map (fun i => (d i).toNat)).sum := by
          apply sum_map_le
          intro i _
          by_cases hi : i = n
          · subst hi
            have he : ((fun j => if j = i then d j - 1 else d j) i) = d i - 1 := by simp
            rw [he]
            omega
          · have he : ((fun j => if j = n then d j - 1 else d j) i) = d i := by simp [hi]
            rw [he]
        omega

theorem measure_step (tasks : List Task) (alpha : ℚ) (current : Task)
    (rest out : List Task) (d : Nat → Int) :
    measureOf tasks (stepState (graphF tasks) (taskMapF tasks) alpha current rest d out) <
      measureOf tasks ⟨d, current :: rest, out⟩ := by
  have hproc := processNbrs_measure (taskMapF tasks) (idsOf tasks).dedup
    (List.nodup_dedup _) (graphF tasks current.id) d rest
    (fun n hn => List.mem_dedup.mpr (graphF_subset_ids hn))
  have hP : (stepState (graphF tasks) (taskMapF tasks) alpha current rest d out).pool =
      sortByEff alpha
        ((processNbrs (taskMapF tasks) (graphF tasks current.id) d rest).2) := rfl
  have hD : (stepState (graphF tasks) (taskMapF tasks) alpha current rest d out).in_deg =
      (processNbrs (taskMapF tasks) (graphF tasks current.id) d rest).1 := rfl
  have hE1 : (({ in_deg := d, pool := current :: rest, out := out } : SortState)).in_deg = d :=
    rfl
  have hE2 : (({ in_deg := d, pool := current :: rest, out := out } : SortState)).pool =
      current :: rest := rfl
  rw [measureOf, measureOf, hP, hD, length_sortByEff, hE1, hE2]
  have hpoollen : (current :: rest).length = rest.length + 1 := by simp
  omega

/-! ## Loop lemmas: sufficiency of the fuel, invariant and trace -/

theorem loopFuel_pool_empty (tasks : List Task) (alpha : ℚ) :
    ∀ (fuel : Nat) (s : SortState), measureOf tasks s < fuel →
      (loopFuel (graphF tasks) (taskMapF tasks) alpha fuel s).pool = [] := by
  intro fuel
  induction fuel with
  | zero => intro s h; omega
  | succ fuel ih =>
      intro s h
      match hp : s.pool with
      | [] =>
          have : loopFuel (graphF tasks) (taskMapF tasks) alpha (fuel + 1) s = s := by
            rw [loopFuel, hp]
          rw [this, hp]
      | current :: rest =>
          have hstep : loopFuel (graphF tasks) (taskMapF tasks) alpha (fuel + 1) s =
              loopFuel (graphF tasks) (taskMapF tasks) alpha fuel
                (stepState (graphF tasks) (taskMapF tasks) alpha current rest s.in_deg s.out) := by
            rw [loopFuel, hp]
          rw [hstep]
          apply ih
          have hm := measure_step tasks alpha current rest s.out s.in_deg
          have hs : s = ⟨s.in_deg, current :: rest, s.out⟩ := by
            cases s
            simp_all
          rw [hs] at h
          omega

theorem loopFuel_fuel_irrel (tasks : List Task) (alpha : ℚ) :
    ∀ (f₁ f₂ : Nat) (s : SortState), measureOf tasks s < f₁ → measureOf tasks s < f₂ →
      loopFuel (graphF tasks) (taskMapF tasks) alpha f₁ s =
        loopFuel (graphF tasks) (taskMapF tasks) alpha f₂ s := by
  intro f₁
  induction f₁ with
  | zero => intro f₂ s h _; omega
  | succ f₁ ih =>
      intro f₂ s h1 h2
      match f₂, h2 with
      | f₂ + 1, h2 =>
        match hp : s.pool with
        | [] =>
            rw [loopFuel, loopFuel, hp]
        | current :: rest =>
            rw [loopFuel, loopFuel, hp]
            have hm := measure_step tasks alpha current rest s.out s.in_deg
            have hs : s = ⟨s.in_deg, current :: rest, s.out⟩ := by
              cases s
              simp_all
            rw [hs] at h1 h2
            exact ih f₂ _ (by omega) (by omega)

theorem loopFuel_inv {tasks : List Task} {alpha : ℚ} (hN : (idsOf tasks).Nodup) :
    ∀ (fuel : Nat) (s : SortState), SortInv tasks alpha s →
      SortInv tasks alpha (loopFuel (graphF tasks) (taskMapF tasks) alpha fuel s) := by
  intro fuel
  induction fuel with
  | zero => intro s h; exact h
  | succ fuel ih =>
      intro s h
      match hp : s.pool with
      | [] =>
          have : loopFuel (graphF tasks) (taskMapF tasks) alpha (fuel + 1) s = s := by
            rw [loopFuel, hp]
          rw [this]
          exact h
      | current :: rest =>
          have hstep : loopFuel (graphF tasks) (taskMapF tasks) alpha (fuel + 1) s =
              loopFuel (graphF tasks) (taskMapF tasks) alpha fuel
                (stepState (graphF tasks) (taskMapF tasks) alpha current rest s.in_deg s.out) := by
            rw [loopFuel, hp]
          rw [hstep]
          apply ih
          apply sortInv_step hN
          have hs : s = ⟨s.in_deg, current :: rest, s.out⟩ := by
            cases s
            simp_all
          rw [← hs]
          exact h

theorem loopTrace_min {tasks : List Task} {alpha : ℚ} (hN : (idsOf tasks).Nodup) :
    ∀ (fuel : Nat) (s : SortState), SortInv tasks alpha s →
      ∀ pr ∈ loopTrace (graphF tasks) (taskMapF tasks) alpha fuel s,
        ∀ x ∈ pr.2, effective_deadline alpha pr.1 ≤ effective_deadline alpha x := by
  intro fuel
  induction fuel with
  | zero => intro s _ pr hpr; simp [loopTrace] at hpr
  | succ fuel ih =>
      intro s hInv pr hpr
      match hp : s.pool with
      | [] =>
          rw [loopTrace, hp] at hpr
          simp at hpr
      | current :: rest =>
          rw [loopTrace, hp] at hpr
          have hsorted : (current :: rest).Sorted
              (fun a b => effective_deadline alpha a ≤ effective_deadline alpha b) := by
            have := hInv.sorted
            rwa [hp] at this
          rcases List.mem_cons.mp hpr with hpr | hpr
          · subst hpr
            intro x hx
            rcases List.mem_cons.mp hx with hx | hx
            · subst hx; exact le_refl _
            · exact (List.pairwise_cons.mp hsorted).1 x hx
          · have hs : s = ⟨s.in_deg, current :: rest, s.out⟩ := by
              cases s
              simp_all
            have hInv' : SortInv tasks alpha ⟨s.in_deg, current :: rest, s.out⟩ := by
              rw [← hs]; exact hInv
            exact ih _ (sortInv_step hN hInv') pr hpr

theorem loopTrace_length (tasks : List Task) (alpha : ℚ) :
    ∀ (fuel : Nat) (s : SortState),
      (loopFuel (graphF tasks) (taskMapF tasks) alpha fuel s).out.length =
        s.out.length + (loopTrace (graphF tasks) (taskMapF tasks) alpha fuel s).length := by
  intro fuel
  induction fuel with
  | zero => intro s; simp [loopFuel, loopTrace]
  | succ fuel ih =>
      intro s
      match hp : s.pool with
      | [] => rw [loopFuel, loopTrace, hp]; simp
      | current :: rest =>
          rw [loopFuel, loopTrace, hp]
          rw [ih]
          have : (stepState (graphF tasks) (taskMapF tasks) alpha current rest
              s.in_deg s.out).out = s.out ++ [current] := rfl
          rw [this]
          simp
          omega

/-! ## The final state of the ordering loop -/

theorem mem_of_contains {l : List Nat} {a : Nat} (h : l.contains a = true) : a ∈ l := by
  simpa [List.contains] using h

theorem runSort_inv {tasks : List Task} (alpha : ℚ) (hN : (idsOf tasks).Nodup) :
    SortInv tasks alpha (runSort tasks alpha) :=
  loopFuel_inv hN _ _ (sortInv_init tasks alpha hN)

theorem runSort_pool (tasks : List Task) (alpha : ℚ) : (runSort tasks alpha).pool = [] :=
  loopFuel_pool_empty tasks alpha _ _ (by omega)

theorem runSort_out_nodup {tasks : List Task} (alpha : ℚ) (hN : (idsOf tasks).Nodup) :
    ((runSort tasks alpha).out.map Task.id).Nodup := by
  have h := (runSort_inv alpha hN).nodup
  rwa [runSort_pool, List.append_nil] at h

theorem runSort_out_subset {tasks : List Task} (alpha : ℚ) (hN : (idsOf tasks).Nodup) :
    ∀ t ∈ (runSort tasks alpha).out, t ∈ tasks := by
  intro t ht
  exact (runSort_inv alpha hN).mem t
    (by rw [runSort_pool, List.append_nil]; exact ht)

theorem runSort_out_le {tasks : List Task} (alpha : ℚ) (hN : (idsOf tasks).Nodup) :
    (runSort tasks alpha).out.length ≤ tasks.length := by
  have hnd := runSort_out_nodup alpha hN
  have hsub : ((runSort tasks alpha).out.map Task.id) ⊆ idsOf tasks := by
    intro a ha
    obtain ⟨t, ht, rfl⟩ := List.mem_map.mp ha
    exact List.mem_map_of_mem Task.id (runSort_out_subset alpha hN t ht)
  have := (hnd.subperm hsub).length_le
  simpa [idsOf] using this

theorem runSort_complete {tasks : List Task} {alpha : ℚ} (hN : (idsOf tasks).Nodup)
    (hA : ¬ hasDepCycle tasks) :
    (runSort tasks alpha).out.length = tasks.length := by
  by_contra hne
  have hInv := runSort_inv alpha hN
  have hpool := runSort_pool tasks alpha
  have hlt : (runSort tasks alpha).out.length < tasks.length :=
    lt_of_le_of_ne (runSort_out_le alpha hN) hne
  have htasksnd : tasks.Nodup := List.Nodup.of_map Task.id hN
  have hx0 : ∃ x, x ∈ tasks ∧ x ∉ (runSort tasks alpha).out := by
    by_contra hall
    push_neg at hall
    have hsub : tasks ⊆ (runSort tasks alpha).out := fun x hx => hall x hx
    have := (htasksnd.subperm hsub).length_le
    omega
  have hstep : ∀ x, (x ∈ tasks ∧ x ∉ (runSort tasks alpha).out) →
      ∃ y, (y ∈ tasks ∧ y ∉ (runSort tasks alpha).out) ∧ depEdge tasks y.id x.id := by
    rintro x ⟨hxt, hxo⟩
    have hdz : (runSort tasks alpha).in_deg x.id ≠ 0 := by
      intro h0
      have hmem := hInv.zero x hxt h0
      rw [hpool, List.append_nil] at hmem
      exact hxo hmem
    have hdeg := hInv.deg x hxt
    have hlen : 0 < (unpoppedDeps tasks (runSort tasks alpha).out x).length := by
      by_contra hzz
      push_neg at hzz
      rw [hdeg] at hdz
      omega
    obtain ⟨dd, hdd⟩ := List.exists_mem_of_length_pos hlen
    rw [unpoppedDeps, List.mem_filter] at hdd
    obtain ⟨hdep, hpred⟩ := hdd
    rw [Bool.and_eq_true] at hpred
    have hpres : dd ∈ idsOf tasks := mem_of_contains hpred.1
    have hnout : dd ∉ (runSort tasks alpha).out.map Task.id := by
      intro hm
      rw [contains_true hm] at hpred
      simpa using hpred.2
    obtain ⟨y, hyt, hyid⟩ := List.mem_map.mp hpres
    have hyo : y ∉ (runSort tasks alpha).out := fun hmem =>
      hnout (hyid ▸ List.mem_map_of_mem Task.id hmem)
    refine ⟨y, ⟨hyt, hyo⟩, ?_⟩
    rw [depEdge, hyid]
    exact ⟨hpres, x, hxt, rfl, hdep⟩
  choose f h1 h2 using hstep
  obtain ⟨x₀, hx₀⟩ := hx0
  let w : ℕ → {x : Task // x ∈ tasks ∧ x ∉ (runSort tasks alpha).out} := fun n =>
    Nat.rec ⟨x₀, hx₀⟩ (fun _ p => ⟨f p.1 p.2, h1 p.1 p.2⟩) n
  have hwe : ∀ k, depEdge tasks (w (k + 1)).1.id (w k).1.id := fun k => h2 (w k).1 (w k).2
  have htg : ∀ m k, Relation.TransGen (depEdge tasks) (w (k + m + 1)).1.id (w k).1.id := by
    intro m
    induction m with
    | zero => intro k; exact Relation.TransGen.single (hwe k)
    | succ m ih =>
        intro k
        exact Relation.TransGen.head (hwe (k + m + 1)) (ih k)
  have hmain : ∀ k l : ℕ, k < l → (w k).1 = (w l).1 → False := by
    intro k l hkl he
    have hm : l = k + (l - k - 1) + 1 := by omega
    have htg2 := htg (l - k - 1) k
    rw [← hm] at htg2
    rw [← congrArg Task.id he] at htg2
    exact hA ⟨(w k).1.id, htg2⟩
  have hcard : tasks.toFinset.card < (Finset.univ : Finset (Fin (tasks.length + 1))).card := by
    have h1c := List.toFinset_card_le tasks
    rw [Finset.card_univ, Fintype.card_fin]
    omega
  obtain ⟨a, _, b, _, hab, heq⟩ := Finset.exists_ne_map_eq_of_card_lt_of_maps_to hcard
    (fun (i : Fin (tasks.length + 1)) _ => List.mem_toFinset.mpr (w i.val).2.1)
  have hvalne : a.val ≠ b.val := fun h => hab (Fin.ext h)
  rcases lt_or_gt_of_ne hvalne with h | h
  · exact hmain a.val b.val h heq
  · exact hmain b.val a.val h heq.symm

/-! ## Correctness of `topological_sort_with_priority` -/

theorem sort_cases (tasks : List Task) (alpha : ℚ) :
    (topological_sort_with_priority tasks alpha =
        Except.ok (runSort tasks alpha).out ∧
      (runSort tasks alpha).out.length = tasks.length) ∨
    (topological_sort_with_priority tasks alpha = Except.error cycleMsg ∧
      (runSort tasks alpha).out.length ≠ tasks.length) := by
  by_cases h : (runSort tasks alpha).out.length = tasks.length
  · left
    refine ⟨?_, h⟩
    simp only [topological_sort_with_priority]
    rw [if_pos h]
  · right
    refine ⟨?_, h⟩
    simp only [topological_sort_with_priority]
    rw [if_neg h]

theorem sort_ok_out {tasks : List Task} {alpha : ℚ} {out : List Task}
    (h : topological_sort_with_priority tasks alpha = Except.ok out) :
    out = (runSort tasks alpha).out ∧
      (runSort tasks alpha).out.length = tasks.length := by
  rcases sort_cases tasks alpha with ⟨he, hl⟩ | ⟨he, _⟩
  · exact ⟨(Except.ok.inj (h.symm.trans he)), hl⟩
  · rw [he] at h
    simp at h

theorem sort_ok_perm {tasks : List Task} {alpha : ℚ} {out : List Task}
    (hN : (idsOf tasks).Nodup)
    (h : topological_sort_with_priority tasks alpha = Except.ok out) :
    List.Perm out tasks := by
  obtain ⟨rfl, hlen⟩ := sort_ok_out h
  have hnodup_out : (runSort tasks alpha).out.Nodup :=
    List.Nodup.of_map Task.id (runSort_out_nodup alpha hN)
  obtain ⟨l, hlp, hls⟩ := hnodup_out.subperm (fun t ht => runSort_out_subset alpha hN t ht)
  have hle : l = tasks := hls.eq_of_length (by rw [hlp.length_eq, hlen])
  exact (hle ▸ hlp).symm

theorem sort_ok_respects {tasks : List Task} {alpha : ℚ} {out : List Task}
    (hN : (idsOf tasks).Nodup)
    (h : topological_sort_with_priority tasks alpha = Except.ok out) :
    respectsOrder tasks out := by
  obtain ⟨rfl, _⟩ := sort_ok_out h
  exact (runSort_inv alpha hN).ord

theorem respects_pos {tasks out : List Task} (hnd : (out.map Task.id).Nodup)
    (hR : respectsOrder tasks out) (hPm : ∀ t ∈ tasks, t ∈ out) {a b : Nat}
    (hE : depEdge tasks a b) :
    (out.map Task.id).indexOf a < (out.map Task.id).indexOf b := by
  obtain ⟨hapres, t, ht, htid, hdd⟩ := hE
  subst htid
  have hto : t ∈ out := hPm t ht
  obtain ⟨l₁, l₂, rfl⟩ := List.append_of_mem hto
  have ha_in : a ∈ l₁.map Task.id := hR l₁ t l₂ rfl a hdd hapres
  rw [List.map_append, List.map_cons]
  rw [List.indexOf_append_of_mem ha_in]
  have htnotl1 : t.id ∉ l₁.map Task.id := by
    rw [List.map_append, List.map_cons] at hnd
    intro hm
    exact (List.nodup_append.mp hnd).2.2 hm (by simp)
  rw [List.indexOf_append_of_not_mem htnotl1, List.indexOf_cons_self]
  have hlt := List.indexOf_lt_length.mpr ha_in
  omega

theorem not_cyclic_of_ok {tasks : List Task} {alpha : ℚ} {out : List Task}
    (hN : (idsOf tasks).Nodup)
    (h : topological_sort_with_priority tasks alpha = Except.ok out) :
    ¬ hasDepCycle tasks := by
  rintro ⟨x, htg⟩
  have hperm := sort_ok_perm hN h
  have hR := sort_ok_respects hN h
  have hnd : (out.map Task.id).Nodup := by
    have hmp : List.Perm (out.map Task.id) (idsOf tasks) := hperm.map Task.id
    rw [List.Perm.nodup_iff hmp]
    exact hN
  have hPm : ∀ t ∈ tasks, t ∈ out := fun t ht => hperm.mem_iff.mpr ht
  have hmono : ∀ a b, Relation.TransGen (depEdge tasks) a b →
      (out.map Task.id).indexOf a < (out.map Task.id).indexOf b := by
    intro a b htg2
    induction htg2 with
    | single hE => exact respects_pos hnd hR hPm hE
    | tail _ hE ih => exact lt_trans ih (respects_pos hnd hR hPm hE)
  exact lt_irrefl _ (hmono x x htg)

theorem sort_error_of_cycle {tasks : List Task} (alpha : ℚ) (hN : (idsOf tasks).Nodup)
    (hC : hasDepCycle tasks) :
    topological_sort_with_priority tasks alpha = Except.error cycleMsg := by
  rcases sort_cases tasks alpha with ⟨he, _⟩ | ⟨he, _⟩
  · exact absurd hC (not_cyclic_of_ok hN he)
  · exact he

theorem sort_ok_of_acyclic {tasks : List Task} (alpha : ℚ) (hN : (idsOf tasks).Nodup)
    (hA : ¬ hasDepCycle tasks) :
    topological_sort_with_priority tasks alpha =
      Except.ok (runSort tasks alpha).out := by
  rcases sort_cases tasks alpha with ⟨he, _⟩ | ⟨_, hl⟩
  · exact he
  · exact absurd (runSort_complete hN hA) hl

/-! ## The backward packing pass -/

theorem packRight_core (cursor : ℚ) (l : List Task) :
    (packRight cursor l).1.map eraseTimes = l.map eraseTimes := by
  induction l generalizing cursor with
  | nil => rfl
  | cons t rest ih =>
      simp only [packRight, List.map_cons]
      refine congrArg₂ _ ?_ (ih cursor)
      cases t
      rfl

theorem packRight_times (cursor : ℚ) (l : List Task) :
    ∀ t' ∈ (packRight cursor l).1, ∃ s f : ℚ,
      t'.start_time = some s ∧ t'.finish_time = some f ∧
        f = s + t'.duration ∧ f ≤ t'.deadline := by
  induction l generalizing cursor with
  | nil => intro t' h; simp [packRight] at h
  | cons t rest ih =>
      intro t' h
      rcases List.mem_cons.mp h with h | h
      · subst h
        refine ⟨min (packRight cursor rest).2 t.deadline - t.duration,
          min (packRight cursor rest).2 t.deadline, rfl, rfl, by ring, min_le_right _ _⟩
      · exact ih cursor t' h

theorem packRight_snd (cursor : ℚ) (l : List Task) :
    (packRight cursor l).2 =
      match (packRight cursor l).1 with
      | [] => cursor
      | t' :: _ => stQ t' := by
  cases l with
  | nil => rfl
  | cons t rest => simp [packRight, stQ]

theorem packRight_duration (cursor : ℚ) (l : List Task)
    (hdur : ∀ t ∈ l, 0 ≤ t.duration) :
    ∀ t' ∈ (packRight cursor l).1, 0 ≤ t'.duration := by
  intro t' ht'
  have hmem : eraseTimes t' ∈ l.map eraseTimes := by
    rw [← packRight_core cursor l]
    exact List.mem_map_of_mem eraseTimes ht'
  obtain ⟨t, ht, he⟩ := List.mem_map.mp hmem
  have : t'.duration = t.duration := by
    have := congrArg Task.duration he.symm
    simpa [eraseTimes] using this
  rw [this]
  exact hdur t ht

theorem packRight_cursor_le (cursor : ℚ) (l : List Task)
    (hdur : ∀ t ∈ l, 0 ≤ t.duration) :
    (packRight cursor l).2 ≤ cursor := by
  induction l generalizing cursor with
  | nil => exact le_refl cursor
  | cons t rest ih =>
      have h1 : (packRight cursor (t :: rest)).2 =
          min (packRight cursor rest).2 t.deadline - t.duration := rfl
      rw [h1]
      have h2 := ih cursor (fun u hu => hdur u (List.mem_cons_of_mem t hu))
      have h3 := hdur t (by simp)
      have h4 : min (packRight cursor rest).2 t.deadline ≤ (packRight cursor rest).2 :=
        min_le_left _ _
      linarith

theorem packRight_pairwise (cursor : ℚ) (l : List Task)
    (hdur : ∀ t ∈ l, 0 ≤ t.duration) :
    List.Pairwise (fun a b => fiQ a ≤ stQ b) (packRight cursor l).1 := by
  induction l generalizing cursor with
  | nil => simp [packRight]
  | cons t rest ih =>
      have hdrest : ∀ u ∈ rest, 0 ≤ u.duration :=
        fun u hu => hdur u (List.mem_cons_of_mem t hu)
      have hP : (packRight cursor (t :: rest)).1 =
          ({ t with
              finish_time := some (min (packRight cursor rest).2 t.deadline),
              start_time := some (min (packRight cursor rest).2 t.deadline - t.duration) }
            :: (packRight cursor rest).1) := rfl
      rw [hP]
      apply List.pairwise_cons.mpr
      refine ⟨?_, ih cursor hdrest⟩
      intro b hb
      have hfi : fiQ ({ t with
          finish_time := some (min (packRight cursor rest).2 t.deadline),
          start_time := some (min (packRight cursor rest).2 t.deadline - t.duration) }) =
          min (packRight cursor rest).2 t.deadline := by
        simp [fiQ]
      rw [hfi]
      have hst : ∀ u ∈ (packRight cursor rest).1, stQ u ≤ fiQ u := by
        intro u hu
        obtain ⟨s, f, hs, hf, hsum, _⟩ := packRight_times cursor rest u hu
        have hd := packRight_duration cursor rest hdrest u hu
        simp only [stQ, fiQ, hs, hf, Option.getD_some]
        linarith
      rcases hrest : (packRight cursor rest).1 with _ | ⟨b₀, tl⟩
      · rw [hrest] at hb
        simp at hb
      · have hcur : (packRight cursor rest).2 = stQ b₀ := by
          rw [packRight_snd, hrest]
        rw [hrest] at hb
        have hmin : min (packRight cursor rest).2 t.deadline ≤ stQ b₀ := by
          rw [← hcur]
          exact min_le_left _ _
        rcases List.mem_cons.mp hb with hb | hb
        · subst hb
          exact hmin
        · have hpw := ih cursor hdrest
          rw [hrest] at hpw
          have hb0b : fiQ b₀ ≤ stQ b := (List.pairwise_cons.mp hpw).1 b hb
          have hb0 : stQ b₀ ≤ fiQ b₀ := by
            apply hst b₀
            rw [hrest]
            simp
          linarith

theorem packRight_chain (cursor : ℚ) (l : List Task) :
    List.Chain' (fun a b => fiQ a = min (stQ b) a.deadline) (packRight cursor l).1 := by
  induction l generalizing cursor with
  | nil => simp [packRight]
  | cons t rest ih =>
      have hP : (packRight cursor (t :: rest)).1 =
          ({ t with
              finish_time := some (min (packRight cursor rest).2 t.deadline),
              start_time := some (min (packRight cursor rest).2 t.deadline - t.duration) }
            :: (packRight cursor rest).1) := rfl
      rw [hP]
      apply List.chain'_cons'.mpr
      refine ⟨?_, ih cursor⟩
      intro y hy
      rcases hrest : (packRight cursor rest).1 with _ | ⟨b₀, tl⟩
      · rw [hrest] at hy
        simp at hy
      · rw [hrest] at hy
        have hy0 : y = b₀ := by
          have := hy
          simp at this
          exact this.symm
        subst hy0
        have hcur : (packRight cursor rest).2 = stQ y := by
          rw [packRight_snd, hrest]
        simp only [fiQ, Option.getD_some]
        rw [← hcur]

/-! ## Structure of `schedule_tasks_with_priority` -/

theorem schedule_eq (tasks : List Task) (alpha : ℚ) :
    schedule_tasks_with_priority tasks alpha =
      if (filteredOf tasks).isEmpty then Except.ok []
      else
        match topological_sort_with_priority (filteredOf tasks) alpha with
        | Except.error e => Except.error e
        | Except.ok tasks_ordered =>
            Except.ok (packRight (maxDeadline tasks_ordered) tasks_ordered).1 := rfl

theorem filtered_ids_nodup {tasks : List Task} (hN : (idsOf tasks).Nodup) :
    (idsOf (filteredOf tasks)).Nodup :=
  List.Nodup.sublist (List.Sublist.map Task.id (List.filter_sublist tasks)) hN

theorem schedule_ok_cases {tasks : List Task} {alpha : ℚ} {out : List Task}
    (h : schedule_tasks_with_priority tasks alpha = Except.ok out) :
    (filteredOf tasks = [] ∧ out = []) ∨
      ∃ ordered, topological_sort_with_priority (filteredOf tasks) alpha = Except.ok ordered ∧
        out = (packRight (maxDeadline ordered) ordered).1 := by
  rw [schedule_eq] at h
  by_cases he : (filteredOf tasks).isEmpty
  · rw [if_pos he] at h
    exact Or.inl ⟨List.isEmpty_iff.mp he, (Except.ok.inj h).symm⟩
  · rw [if_neg he] at h
    cases htop : topological_sort_with_priority (filteredOf tasks) alpha with
    | error e =>
        rw [htop] at h
        simp at h
    | ok ordered =>
        rw [htop] at h
        exact Or.inr ⟨ordered, rfl, (Except.ok.inj h).symm⟩

theorem hasDepCycle_ne_nil {tasks : List Task} (hC : hasDepCycle tasks) : tasks ≠ [] := by
  obtain ⟨x, htg⟩ := hC
  obtain ⟨b, hr, _⟩ := Relation.TransGen.head'_iff.mp htg
  obtain ⟨_, t, ht, _, _⟩ := hr
  intro hnil
  rw [hnil] at ht
  simp at ht

theorem map_field_of_eraseTimes {β : Type} (f : Task → β)
    (hf : ∀ t, f (eraseTimes t) = f t) {l₁ l₂ : List Task}
    (h : l₁.map eraseTimes = l₂.map eraseTimes) : l₁.map f = l₂.map f := by
  have h2 := congrArg (List.map f) h
  rw [List.map_map, List.map_map] at h2
  have he : (f ∘ eraseTimes) = f := funext hf
  rwa [he] at h2

theorem eraseTimes_id (t : Task) : (eraseTimes t).id = t.id := rfl

theorem eraseTimes_status (t : Task) : (eraseTimes t).status = t.status := rfl

theorem eraseTimes_deps (t : Task) : (eraseTimes t).dependencies = t.dependencies := rfl

theorem eraseTimes_duration (t : Task) : (eraseTimes t).duration = t.duration := rfl

/-- Every scheduled task is a time-annotated copy of a task of the
topological order (and hence of the filtered input). -/
theorem schedule_out_core {tasks : List Task} {alpha : ℚ} {out ordered : List Task}
    (_htop : topological_sort_with_priority (filteredOf tasks) alpha = Except.ok ordered)
    (hout : out = (packRight (maxDeadline ordered) ordered).1) :
    out.map eraseTimes = ordered.map eraseTimes := by
  rw [hout]
  exact packRight_core _ ordered

theorem mem_core_of_mem {l₁ l₂ : List Task} (h : l₁.map eraseTimes = l₂.map eraseTimes)
    {t' : Task} (ht' : t' ∈ l₁) : ∃ t ∈ l₂, eraseTimes t' = eraseTimes t := by
  have hmem : eraseTimes t' ∈ l₂.map eraseTimes := by
    rw [← h]
    exact List.mem_map_of_mem eraseTimes ht'
  obtain ⟨t, ht, he⟩ := List.mem_map.mp hmem
  exact ⟨t, ht, he.symm⟩

theorem schedule_out_durations {tasks : List Task} {alpha : ℚ} {out ordered : List Task}
    (hdur : ∀ t ∈ tasks, 0 ≤ t.duration)
    (hN : (idsOf tasks).Nodup)
    (htop : topological_sort_with_priority (filteredOf tasks) alpha = Except.ok ordered)
    (hout : out = (packRight (maxDeadline ordered) ordered).1) :
    ∀ t' ∈ out, 0 ≤ t'.duration := by
  have hperm := sort_ok_perm (filtered_ids_nodup hN) htop
  have hordered : ∀ t ∈ ordered, 0 ≤ t.duration := by
    intro t ht
    have : t ∈ filteredOf tasks := hperm.mem_iff.mp ht
    exact hdur t (List.mem_of_mem_filter this)
  rw [hout]
  exact packRight_duration _ ordered hordered

theorem schedule_out_ids {tasks : List Task} {alpha : ℚ} {out ordered : List Task}
    (htop : topological_sort_with_priority (filteredOf tasks) alpha = Except.ok ordered)
    (hout : out = (packRight (maxDeadline ordered) ordered).1) :
    out.map Task.id = ordered.map Task.id :=
  map_field_of_eraseTimes Task.id eraseTimes_id (schedule_out_core htop hout)

/-- The computed time windows themselves respect precedence: when a task of
the schedule lists a present dependency id, the (unique) earlier task
carrying that id finishes no later than the dependent starts (and in
particular starts no later). -/
theorem dep_windows_ordered {tasks : List Task} {alpha : ℚ}
    (hN : (idsOf tasks).Nodup) (hdur : ∀ t ∈ tasks, 0 ≤ t.duration)
    {out l₁ l₂ : List Task} {x : Task}
    (hok : schedule_tasks_with_priority tasks alpha = Except.ok out)
    (hsp : out = l₁ ++ x :: l₂) {dd : Nat} (hdd : dd ∈ x.dependencies)
    (hpres : dd ∈ idsOf (filteredOf tasks)) :
    ∃ y ∈ l₁, y.id = dd ∧ fiQ y ≤ stQ x ∧ stQ y ≤ stQ x := by
  rcases schedule_ok_cases hok with ⟨_, rfl⟩ | ⟨ordered, htop, hpack⟩
  · exact absurd hsp.symm (by simp)
  · have hfn := filtered_ids_nodup hN
    have hcore : out.map eraseTimes = ordered.map eraseTimes :=
      schedule_out_core htop hpack
    have h2 : ordered.map eraseTimes =
        l₁.map eraseTimes ++ eraseTimes x :: l₂.map eraseTimes := by
      rw [← hcore, hsp]
      simp
    obtain ⟨m₁, m₂', hord, hm₁, hm₂'⟩ := List.map_eq_append_iff.mp h2
    obtain ⟨u, m₂, hm₂e, hux, _⟩ := List.map_eq_cons_iff.mp hm₂'
    rw [hm₂e] at hord
    have hR := sort_ok_respects hfn htop
    have hudeps : u.dependencies = x.dependencies := by
      have := congrArg Task.dependencies hux
      simpa [eraseTimes] using this
    have hddm : dd ∈ m₁.map Task.id :=
      hR m₁ u m₂ hord dd (by rw [hudeps]; exact hdd) hpres
    have hidm : m₁.map Task.id = l₁.map Task.id :=
      map_field_of_eraseTimes Task.id eraseTimes_id hm₁
    rw [hidm] at hddm
    obtain ⟨y, hy, hyid⟩ := List.mem_map.mp hddm
    have hperm := sort_ok_perm hfn htop
    have hordd : ∀ t ∈ ordered, 0 ≤ t.duration := fun t ht =>
      hdur t (List.mem_of_mem_filter (hperm.mem_iff.mp ht))
    have hpw : List.Pairwise (fun a b => fiQ a ≤ stQ b) out := by
      rw [hpack]
      exact packRight_pairwise _ ordered hordd
    rw [hsp] at hpw
    have hfy : fiQ y ≤ stQ x :=
      (List.pairwise_append.mp hpw).2.2 y hy x (by simp)
    have hy_out : y ∈ out := by
      rw [hsp]
      exact List.mem_append.mpr (Or.inl hy)
    have hsty : stQ y ≤ fiQ y := by
      obtain ⟨s, f, hs, hf, hsum, _⟩ := by
        rw [hpack] at hy_out
        exact packRight_times (maxDeadline ordered) ordered y hy_out
      have hd : 0 ≤ y.duration := by
        rw [hpack] at hy_out
        exact packRight_duration _ ordered hordd y hy_out
      simp only [stQ, fiQ, hs, hf, Option.getD_some]
      linarith
    exact ⟨y, hy, hyid, hfy, le_trans hsty hfy⟩

/-- Any task of a successful schedule's output carries a valid (plannable)
status, and the output ids are exactly the filtered input's ids (up to
permutation of the topological order). -/
theorem schedule_out_status {tasks : List Task} {alpha : ℚ} {out : List Task}
    (hN : (idsOf tasks).Nodup)
    (hok : schedule_tasks_with_priority tasks alpha = Except.ok out) :
    ∀ t' ∈ out, validStatus t'.status = true ∧ t'.id ∈ idsOf (filteredOf tasks) := by
  rcases schedule_ok_cases hok with ⟨_, rfl⟩ | ⟨ordered, htop, hpack⟩
  · intro t' h
    simp at h
  · intro t' h
    have hcore : out.map eraseTimes = ordered.map eraseTimes :=
      schedule_out_core htop hpack
    obtain ⟨t, ht, he⟩ := mem_core_of_mem hcore h
    have hst : t'.status = t.status := by
      have := congrArg Task.status he
      simpa [eraseTimes] using this
    have hid : t'.id = t.id := by
      have := congrArg Task.id he
      simpa [eraseTimes] using this
    have hperm := sort_ok_perm (filtered_ids_nodup hN) htop
    have htf : t ∈ filteredOf tasks := hperm.mem_iff.mp ht
    have hval : validStatus t.status = true := by
      have h3 : t ∈ tasks.filter (fun t => validStatus t.status) := htf
      exact (List.mem_filter.mp h3).2
    refine ⟨by rw [hst]; exact hval, ?_⟩
    rw [hid]
    exact List.mem_map_of_mem Task.id htf

/-- Frame property of the in-place mutation: tasks with a non-plannable
status are returned to the caller exactly as they came in. -/
theorem schedulePost_frame {tasks : List Task} {alpha : ℚ} (hN : (idsOf tasks).Nodup) :
    List.Forall₂ (fun post orig =>
      (orig.status = "отменено" ∨ orig.status = "выполнено" ∨ orig.status = "удалено") →
        post = orig) (schedulePost tasks alpha) tasks := by
  cases hs : schedule_tasks_with_priority tasks alpha with
  | error e =>
      simp only [schedulePost, hs]
      exact List.forall₂_same.mpr (fun a _ _ => rfl)
  | ok scheduled =>
      simp only [schedulePost, hs]
      rw [List.forall₂_map_left_iff]
      apply List.forall₂_same.mpr
      intro t ht hbad
      have hfind : scheduled.find? (fun s => s.id == t.id) = none := by
        rw [List.find?_eq_none]
        intro x hx hbeq
        have hxid : x.id = t.id := by simpa using hbeq
        obtain ⟨_, hidf⟩ := schedule_out_status hN hs x hx
        rw [hxid] at hidf
        obtain ⟨u, hu, huid⟩ := List.mem_map.mp hidf
        have hut : u ∈ tasks := List.mem_of_mem_filter hu
        have hue : u = t := tasks_id_inj hN hut ht huid
        have hvalt : validStatus t.status = true := by
          rw [← hue]
          exact (List.mem_filter.mp hu).2
        rcases hbad with hb | hb | hb <;> rw [hb] at hvalt <;>
          exact absurd hvalt (by decide)
      rw [hfind]
      rfl

/-! ## The claims

Witnesses evaluate the scheduler on concrete inputs; the arithmetic of `ℚ`
is locally made reducible so that `decide` can compute with it. -/

section ClaimSection

attribute [local semireducible] Rat.add Rat.sub Rat.mul Rat.inv

/-- C1: for every finite task list with unique ids and an acyclic
dependency relation (restricted to ids present in the list),
`topological_sort_with_priority` returns a permutation of the input in
which, for every dependency edge `dep → t` with both tasks present, `dep`
appears strictly before `t`. -/
theorem C1_topological_sort_correct (tasks : List Task) (alpha : ℚ)
    (hN : (idsOf tasks).Nodup) (hA : ¬ hasDepCycle tasks) :
    ∃ out, topological_sort_with_priority tasks alpha = Except.ok out ∧
      List.Perm out tasks ∧
      ∀ l₁ t l₂, out = l₁ ++ t :: l₂ →
        ∀ dep ∈ t.dependencies, dep ∈ idsOf tasks → dep ∈ l₁.map Task.id := by
  have hok := sort_ok_of_acyclic alpha hN hA
  exact ⟨(runSort tasks alpha).out, hok, sort_ok_perm hN hok, sort_ok_respects hN hok⟩

theorem C1_witness :
    ∃ out, topological_sort_with_priority exPair 1 = Except.ok out ∧
      List.Perm out exPair ∧
      ∀ l₁ t l₂, out = l₁ ++ t :: l₂ →
        ∀ dep ∈ t.dependencies, dep ∈ idsOf exPair → dep ∈ l₁.map Task.id :=
  C1_topological_sort_correct exPair 1 (by decide)
    (not_cyclic_of_ok (by decide)
      (by decide : topological_sort_with_priority exPair 1 = Except.ok exPair))

/-- C2: whenever the dependency relation restricted to the filtered
(plannable-status) tasks contains a cycle, `schedule_tasks_with_priority`
fails with the distinguishable cycle error, carries no partial result, and
leaves every task's `start_time`/`finish_time` unmutated (the post state is
the input task list). -/
theorem C2_cycle_error (tasks : List Task) (alpha : ℚ)
    (hN : (idsOf tasks).Nodup) (hC : hasDepCycle (filteredOf tasks)) :
    schedule_tasks_with_priority tasks alpha = Except.error cycleMsg ∧
      schedulePost tasks alpha = tasks := by
  have hfn := filtered_ids_nodup hN
  have herr := sort_error_of_cycle alpha hfn hC
  have hne : ¬ (filteredOf tasks).isEmpty = true := by
    rw [List.isEmpty_iff]
    exact hasDepCycle_ne_nil hC
  have h1 : schedule_tasks_with_priority tasks alpha = Except.error cycleMsg := by
    rw [schedule_eq, if_neg hne, herr]
  refine ⟨h1, ?_⟩
  simp only [schedulePost, h1]

theorem C2_witness :
    schedule_tasks_with_priority exCyc 1 = Except.error cycleMsg ∧
      schedulePost exCyc 1 = exCyc :=
  C2_cycle_error exCyc 1 (by decide)
    ⟨1, Relation.TransGen.head
      (show depEdge (filteredOf exCyc) 1 2 by unfold depEdge; decide)
      (Relation.TransGen.single
        (show depEdge (filteredOf exCyc) 2 1 by unfold depEdge; decide))⟩

/-- C3 (as claimed) is false: no precondition-satisfying input makes the
backward scheduler assign a dependency a start time later than its
dependent's start time. -/
theorem C3_counterexample : ¬ depStartsAfterDependent := by
  rintro ⟨tasks, alpha, hN, hdur, _, out, hok, l₁, x, l₂, y, hsp, hy, hyd, hlt⟩
  rcases schedule_ok_cases hok with ⟨_, rfl⟩ | ⟨ordered, htop, hpack⟩
  · exact absurd hsp.symm (by simp)
  · have hfn := filtered_ids_nodup hN
    have hids := schedule_out_ids htop hpack
    have hperm := sort_ok_perm hfn htop
    have hy_out : y ∈ out := by
      rw [hsp]
      exact List.mem_append.mpr (Or.inl hy)
    have hpres : y.id ∈ idsOf (filteredOf tasks) := by
      have h1 : y.id ∈ out.map Task.id := List.mem_map_of_mem Task.id hy_out
      rw [hids] at h1
      obtain ⟨t, ht, htid⟩ := List.mem_map.mp h1
      rw [← htid]
      exact List.mem_map_of_mem Task.id (hperm.mem_iff.mp ht)
    obtain ⟨y', hy', hy'id, _, hsy⟩ := dep_windows_ordered hN hdur hok hsp hyd hpres
    have hnodup_out : (out.map Task.id).Nodup := by
      rw [hids]
      have hmp : List.Perm (ordered.map Task.id) (idsOf (filteredOf tasks)) :=
        hperm.map Task.id
      rw [List.Perm.nodup_iff hmp]
      exact hfn
    have hl₁nd : (l₁.map Task.id).Nodup := by
      rw [hsp, List.map_append] at hnodup_out
      exact (List.nodup_append.mp hnodup_out).1
    have hyy : y' = y := List.inj_on_of_nodup_map hl₁nd hy' hy (by rw [hy'id])
    rw [hyy] at hsy
    exact absurd hlt (not_lt.mpr hsy)

/-- C3 amended: the computed time values do respect precedence — for every
successfully scheduled input with unique ids and non-negative durations and
every present dependency `dd` of a scheduled task `x`, the earlier task
carrying id `dd` satisfies `finish_time(dep) ≤ start_time(x)` (hence also
`start_time(dep) ≤ start_time(x)`); the emission order is not the only
guarantee. -/
theorem C3_amended_dep_before (tasks : List Task) (alpha : ℚ)
    (hN : (idsOf tasks).Nodup) (hdur : ∀ t ∈ tasks, 0 ≤ t.duration)
    (out l₁ l₂ : List Task) (x : Task)
    (hok : schedule_tasks_with_priority tasks alpha = Except.ok out)
    (hsp : out = l₁ ++ x :: l₂) (dd : Nat) (hdd : dd ∈ x.dependencies)
    (hpres : dd ∈ idsOf (filteredOf tasks)) :
    ∃ y ∈ l₁, y.id = dd ∧ fiQ y ≤ stQ x ∧ stQ y ≤ stQ x :=
  dep_windows_ordered hN hdur hok hsp hdd hpres

theorem C3_witness :
    ∃ y ∈ [(⟨1, 10, 2, 1, "К выполнению", [], some 5, some 7⟩ : Task)],
      y.id = 1 ∧
        fiQ y ≤ stQ (⟨2, 10, 3, 1, "К выполнению", [1], some 7, some 10⟩ : Task) ∧
        stQ y ≤ stQ (⟨2, 10, 3, 1, "К выполнению", [1], some 7, some 10⟩ : Task) :=
  C3_amended_dep_before exPair 1 (by decide) (by decide) exPairOut
    [⟨1, 10, 2, 1, "К выполнению", [], some 5, some 7⟩] []
    (⟨2, 10, 3, 1, "К выполнению", [1], some 7, some 10⟩)
    (by decide : schedule_tasks_with_priority exPair 1 = Except.ok exPairOut)
    (by decide) 1 (by decide) (by decide)

/-- C4 (as claimed) is false: on `exC4` with `alpha = 1`, the loop pops
task 3 while task 2 — equal effective deadline, earlier in the input — is
in the ready pool, so ties are not broken by input order. -/
theorem C4_counterexample : ¬ tieBreakByInputOrder exC4 1 := by
  unfold tieBreakByInputOrder
  decide

/-- C4 amended: at every step of the ordering pass the popped task has
minimal effective deadline among the ready pool (ties are broken by the
pool's insertion order, which is not always the input order). -/
theorem C4_amended_pool_min (tasks : List Task) (alpha : ℚ)
    (hN : (idsOf tasks).Nodup) :
    ∀ pr ∈ sortTrace tasks alpha, ∀ x ∈ pr.2,
      effective_deadline alpha pr.1 ≤ effective_deadline alpha x :=
  loopTrace_min hN _ _ (sortInv_init tasks alpha hN)

theorem C4_witness :
    effective_deadline 1 (⟨3, 5, 1, 1, "К выполнению", [], none, none⟩ : Task) ≤
      effective_deadline 1 (⟨2, 5, 1, 1, "К выполнению", [1], none, none⟩ : Task) :=
  C4_amended_pool_min exC4 1 (by decide)
    (⟨3, 5, 1, 1, "К выполнению", [], none, none⟩,
      [⟨3, 5, 1, 1, "К выполнению", [], none, none⟩,
       ⟨2, 5, 1, 1, "К выполнению", [1], none, none⟩]) (by decide)
    (⟨2, 5, 1, 1, "К выполнению", [1], none, none⟩) (by decide)

/-- C5: for every successfully scheduled task set with non-negative
durations, no two tasks of the returned order overlap — each task finishes
no later than every later task starts, and adjacently each task's finish
time equals the minimum of the next task's start time and its own
deadline. -/
theorem C5_no_overlap (tasks : List Task) (alpha : ℚ) (out : List Task)
    (hN : (idsOf tasks).Nodup) (hdur : ∀ t ∈ tasks, 0 ≤ t.duration)
    (hok : schedule_tasks_with_priority tasks alpha = Except.ok out) :
    List.Pairwise (fun a b => fiQ a ≤ stQ b) out ∧
      List.Chain' (fun a b => fiQ a = min (stQ b) a.deadline) out := by
  rcases schedule_ok_cases hok with ⟨_, rfl⟩ | ⟨ordered, htop, hpack⟩
  · exact ⟨List.Pairwise.nil, List.chain'_nil⟩
  · have hperm := sort_ok_perm (filtered_ids_nodup hN) htop
    have hordd : ∀ t ∈ ordered, 0 ≤ t.duration := fun t ht =>
      hdur t (List.mem_of_mem_filter (hperm.mem_iff.mp ht))
    rw [hpack]
    exact ⟨packRight_pairwise _ ordered hordd, packRight_chain _ ordered⟩

theorem C5_witness :
    List.Pairwise (fun a b => fiQ a ≤ stQ b) exOut0 ∧
      List.Chain' (fun a b => fiQ a = min (stQ b) a.deadline) exOut0 :=
  C5_no_overlap exTasks 0 exOut0 (by decide) (by decide)
    (by decide : schedule_tasks_with_priority exTasks 0 = Except.ok exOut0)

/-- C6: every task returned by `schedule_tasks_with_priority` has an
assigned finish time that does not exceed its deadline, for every input
task set and every `alpha`. -/
theorem C6_deadline_respected (tasks : List Task) (alpha : ℚ) (out : List Task)
    (hok : schedule_tasks_with_priority tasks alpha = Except.ok out) :
    ∀ t' ∈ out, ∃ f : ℚ, t'.finish_time = some f ∧ f ≤ t'.deadline := by
  rcases schedule_ok_cases hok with ⟨_, rfl⟩ | ⟨ordered, _, hpack⟩
  · intro t' h
    simp at h
  · intro t' h
    rw [hpack] at h
    obtain ⟨s, f, _, hf, _, hfd⟩ := packRight_times (maxDeadline ordered) ordered t' h
    exact ⟨f, hf, hfd⟩

theorem C6_witness :
    ∃ f : ℚ,
      (⟨6, 70, 5, 3, "К выполнению", [4, 1], some 65, some 70⟩ : Task).finish_time = some f ∧
        f ≤ (⟨6, 70, 5, 3, "К выполнению", [4, 1], some 65, some 70⟩ : Task).deadline :=
  C6_deadline_respected exTasks 0 exOut0
    (by decide : schedule_tasks_with_priority exTasks 0 = Except.ok exOut0)
    (⟨6, 70, 5, 3, "К выполнению", [4, 1], some 65, some 70⟩) (by decide)

/-- C7: every task returned by `schedule_tasks_with_priority` has assigned
times with `finish_time = start_time + duration`, for every input task set
and every `alpha`. -/
theorem C7_duration_consistent (tasks : List Task) (alpha : ℚ) (out : List Task)
    (hok : schedule_tasks_with_priority tasks alpha = Except.ok out) :
    ∀ t' ∈ out, ∃ s f : ℚ,
      t'.start_time = some s ∧ t'.finish_time = some f ∧ f = s + t'.duration := by
  rcases schedule_ok_cases hok with ⟨_, rfl⟩ | ⟨ordered, _, hpack⟩
  · intro t' h
    simp at h
  · intro t' h
    rw [hpack] at h
    obtain ⟨s, f, hs, hf, hsum, _⟩ := packRight_times (maxDeadline ordered) ordered t' h
    exact ⟨s, f, hs, hf, hsum⟩

theorem C7_witness :
    ∃ s f : ℚ,
      (⟨1, 50, 10, 3, "К выполнению", [], some 30, some 40⟩ : Task).start_time = some s ∧
        (⟨1, 50, 10, 3, "К выполнению", [], some 30, some 40⟩ : Task).finish_time = some f ∧
        f = s + (⟨1, 50, 10, 3, "К выполнению", [], some 30, some 40⟩ : Task).duration :=
  C7_duration_consistent exTasks 0 exOut0
    (by decide : schedule_tasks_with_priority exTasks 0 = Except.ok exOut0)
    (⟨1, 50, 10, 3, "К выполнению", [], some 30, some 40⟩) (by decide)

/-- C8: tasks with status cancelled/done/deleted never appear in the output
of `schedule_tasks_with_priority`, and the post-call state returns every
such task unchanged (its time fields untouched); only filtered-in tasks are
replaced by annotated copies. -/
theorem C8_status_filter_frame (tasks : List Task) (alpha : ℚ)
    (hN : (idsOf tasks).Nodup) :
    (∀ out, schedule_tasks_with_priority tasks alpha = Except.ok out →
      ∀ t' ∈ out, t'.status ≠ "отменено" ∧ t'.status ≠ "выполнено" ∧
        t'.status ≠ "удалено") ∧
    List.Forall₂ (fun post orig =>
      (orig.status = "отменено" ∨ orig.status = "выполнено" ∨ orig.status = "удалено") →
        post = orig) (schedulePost tasks alpha) tasks := by
  constructor
  · intro out hok t' ht'
    have hval := (schedule_out_status hN hok t' ht').1
    rw [validStatus] at hval
    simp only [Bool.or_eq_true, beq_iff_eq] at hval
    rcases hval with (h | h) | h <;> rw [h] <;>
      exact ⟨by decide, by decide, by decide⟩
  · exact schedulePost_frame hN

theorem C8_witness :
    (∀ out, schedule_tasks_with_priority exTasks 0 = Except.ok out →
      ∀ t' ∈ out, t'.status ≠ "отменено" ∧ t'.status ≠ "выполнено" ∧
        t'.status ≠ "удалено") ∧
    List.Forall₂ (fun post orig =>
      (orig.status = "отменено" ∨ orig.status = "выполнено" ∨ orig.status = "удалено") →
        post = orig) (schedulePost exTasks 0) exTasks :=
  C8_status_filter_frame exTasks 0 (by decide)

/-- C9: an empty input, or one whose every task is cancelled/done/deleted,
makes `schedule_tasks_with_priority` return the empty list without error,
for every `alpha`. -/
theorem C9_empty_input (tasks : List Task) (alpha : ℚ)
    (h : tasks = [] ∨ ∀ t ∈ tasks,
      t.status = "отменено" ∨ t.status = "выполнено" ∨ t.status = "удалено") :
    schedule_tasks_with_priority tasks alpha = Except.ok [] := by
  have hfe : filteredOf tasks = [] := by
    rcases h with rfl | hall
    · rfl
    · rw [filteredOf, List.filter_eq_nil_iff]
      intro t ht
      rcases hall t ht with hb | hb | hb <;> rw [hb] <;> decide
  rw [schedule_eq, hfe]
  rfl

theorem C9_witness :
    schedule_tasks_with_priority [(⟨5, 100, 5, 1, "отменено", [], none, none⟩ : Task)] 3 =
      Except.ok [] :=
  C9_empty_input [⟨5, 100, 5, 1, "отменено", [], none, none⟩] 3 (Or.inr (by decide))

/-- C10: the ordering pass terminates on every finite task list with unique
ids, cyclic dependencies included — the loop reaches its pool-empty exit
and executes at most as many iterations (trace entries) as there are
tasks. -/
theorem C10_loop_iterations (tasks : List Task) (alpha : ℚ)
    (hN : (idsOf tasks).Nodup) :
    (sortTrace tasks alpha).length ≤ tasks.length ∧
      (runSort tasks alpha).pool = [] := by
  constructor
  · have h2 : (runSort tasks alpha).out.length =
        (initState tasks alpha).out.length + (sortTrace tasks alpha).length :=
      loopTrace_length tasks alpha
        (measureOf tasks (initState tasks alpha) + 1) (initState tasks alpha)
    have hinit : (initState tasks alpha).out.length = 0 := rfl
    have hle := runSort_out_le alpha hN
    omega
  · exact runSort_pool tasks alpha

theorem C10_witness :
    (sortTrace exCyc 1).length ≤ exCyc.length ∧ (runSort exCyc 1).pool = [] :=
  C10_loop_iterations exCyc 1 (by decide)

end ClaimSection

end TaskSched
